import Mathlib

set_option maxHeartbeats 1600000

/-!
Verification development for the `get-folder` repository (TypeScript).

The embedding follows the source files:
* `SimpleSemaphore` (concurrency limiter; `src/unnamed/part_008`, also used by
  `packages/core/src/FolderSize.ts` through `concurrentMapFiltered`),
* `PathUtil.isHiddenFile`, `RegExpUtil.tests`, `BaseScene.shouldIgnorePath`,
  `BaseScene.checkInode` (`packages/core/src/utils/PathUtil.ts`,
  `packages/core/src/utils/RegExpUtil.ts`, `packages/core/src/BaseScene.ts`),
* the recursive traversal engine and its three front ends `size`, `tree`,
  `lazyTree`, plus `expandNode` / `buildSingleLazyNode`
  (`packages/core/src/FolderSize.ts`).

The semaphore is embedded as a state machine whose atomic events are the
synchronous segments of `acquire()` and `release()` (in JavaScript the wake-up
wrapper pushed by `acquire` runs synchronously inside `release`, so a
release-with-handoff is one atomic event).  The traversal is embedded as a
sequential recursion over an abstract filesystem tree; the order of child
processing is the order `concurrentMap` starts the tasks (readdir order), and
the error-swallowing of `concurrentMap(…, 'ignore')` is modelled exactly:
an exception thrown inside a child task is converted to `null` and the child
is dropped from the result list.
-/

namespace GetFolder

/-! ## SimpleSemaphore (`src/unnamed/part_008`)

State of one `SimpleSemaphore` instance, instrumented with the observables the
claims talk about: `out` counts acquire() calls that have completed without a
matching release(); `enq` and `woken` record the identities of suspended
callers in enqueue order resp. wake-up order; `suspends` and `handoffs` count
the corresponding events. -/

structure SemState where
  avail : Int
  queue : List Nat
  out : Nat
  enq : List Nat
  woken : List Nat
  suspends : Nat
  handoffs : Nat
deriving Repr, DecidableEq

def SemState.init (concurrency : Nat) : SemState :=
  ⟨concurrency, [], 0, [], [], 0, 0⟩

inductive SemOp where
  | acquire (id : Nat)
  | release
deriving Repr, DecidableEq

/-- One atomic event of the semaphore.

`acquire`: `if (this.available > 0) { this.available--; return; }` completes
immediately; otherwise the caller pushes a wrapper onto `waiters` and suspends.

`release`: `if (this.waiters.length > 0)` shift the head wrapper and run it
(the wrapper does `this.available--` and resolves the waiter — note `release`
itself does *not* increment `available` in this branch); otherwise
`this.available++`.

A `release` is always performed by a caller whose `acquire` has completed
(in the source, `release()` sits in the `finally` of `concurrentMap` after
`acquire()` resolved), so an event trace with a release while `out = 0` is
rejected (`none`). -/
def semStep (s : SemState) : SemOp → Option SemState
  | .acquire i =>
    if 0 < s.avail then
      some { s with avail := s.avail - 1, out := s.out + 1 }
    else
      some { s with queue := s.queue ++ [i], enq := s.enq ++ [i],
                    suspends := s.suspends + 1 }
  | .release =>
    if s.out = 0 then none
    else
      match s.queue with
      | [] => some { s with avail := s.avail + 1, out := s.out - 1 }
      | w :: rest =>
        -- handoff: the wrapper decrements `available`; the releaser stops
        -- being outstanding and the woken waiter becomes outstanding.
        some { s with queue := rest, avail := s.avail - 1,
                      woken := s.woken ++ [w], handoffs := s.handoffs + 1 }

def semRun : SemState → List SemOp → Option SemState
  | s, [] => some s
  | s, op :: rest =>
    match semStep s op with
    | some s' => semRun s' rest
    | none => none

def numAcq : List SemOp → Nat
  | [] => 0
  | .acquire _ :: rest => numAcq rest + 1
  | .release :: rest => numAcq rest

def numRel : List SemOp → Nat
  | [] => 0
  | .acquire _ :: rest => numRel rest
  | .release :: rest => numRel rest + 1

/-- Net effect of one event on the quantity `avail + 2·handoffs − suspends`. -/
def opDelta : SemOp → Int
  | .release => 1
  | .acquire _ => -1

lemma semStep_affine {s s' : SemState} {op : SemOp}
    (h : semStep s op = some s') :
    s'.avail + 2 * (s'.handoffs : Int) - s'.suspends =
      s.avail + 2 * (s.handoffs : Int) - s.suspends + opDelta op := by
  cases op with
  | acquire i =>
    simp only [semStep] at h
    split_ifs at h <;> simp only [Option.some.injEq] at h <;> subst h <;>
      simp only [opDelta] <;> push_cast <;> ring
  | release =>
    simp only [semStep] at h
    split_ifs at h with ho
    cases hq : s.queue <;> rw [hq] at h <;>
      simp only [Option.some.injEq] at h <;> subst h <;>
      simp only [opDelta] <;> push_cast <;> ring

lemma semStep_queue_len {s s' : SemState} {op : SemOp}
    (h : semStep s op = some s') :
    s'.queue.length + s'.handoffs + s.suspends =
      s.queue.length + s.handoffs + s'.suspends := by
  cases op with
  | acquire i =>
    simp only [semStep] at h
    split_ifs at h <;> simp only [Option.some.injEq] at h <;> subst h <;>
      simp [List.length_append] <;> omega
  | release =>
    simp only [semStep] at h
    split_ifs at h with ho
    cases hq : s.queue <;> rw [hq] at h <;>
      simp only [Option.some.injEq] at h <;> subst h <;>
      simp [hq] <;> omega

lemma semRun_affine {ops : List SemOp} :
    ∀ {s st : SemState}, semRun s ops = some st →
    st.avail + 2 * (st.handoffs : Int) - st.suspends =
      s.avail + 2 * (s.handoffs : Int) - s.suspends +
        numRel ops - numAcq ops := by
  induction ops with
  | nil => intro s st h; simp only [semRun, Option.some.injEq] at h; subst h
           simp [numRel, numAcq]
  | cons op rest ih =>
    intro s st h
    simp only [semRun] at h
    cases hstep : semStep s op with
    | none => rw [hstep] at h; exact absurd h (by simp)
    | some s' =>
      rw [hstep] at h
      have h1 := semStep_affine hstep
      have h2 := ih h
      cases op <;> simp only [numRel, numAcq, opDelta] at * <;>
        push_cast at * <;> omega

lemma semRun_queue_len {ops : List SemOp} :
    ∀ {s st : SemState}, semRun s ops = some st →
    st.queue.length + st.handoffs + s.suspends =
      s.queue.length + s.handoffs + st.suspends := by
  induction ops with
  | nil => intro s st h; simp only [semRun, Option.some.injEq] at h; subst h; rfl
  | cons op rest ih =>
    intro s st h
    simp only [semRun] at h
    cases hstep : semStep s op with
    | none => rw [hstep] at h; exact absurd h (by simp)
    | some s' =>
      rw [hstep] at h
      have h1 := semStep_queue_len hstep
      have h2 := ih h
      omega

/-- C3 -- In `SimpleSemaphore`, a `release()` that wakes a queued waiter does
not increment `available`, while the woken waiter's wrapper decrements it.
Consequently, for every balanced event trace (as many releases as acquires,
all of them matched, every suspended waiter woken so that the queue ends
empty) in which at least one `acquire()` suspended, the final value of
`available` is strictly below the initial permit count: permits are not
conserved across handoffs. -/
theorem simpleSemaphore_handoff_loses_permits
    (N : Nat) (ops : List SemOp) (st : SemState)
    (hrun : semRun (SemState.init N) ops = some st)
    (hbal : numAcq ops = numRel ops)
    (hq : st.queue = [])
    (hsusp : 1 ≤ st.suspends) :
    st.avail < N := by
  have h1 := semRun_affine hrun
  have h2 := semRun_queue_len hrun
  simp only [SemState.init, hq, List.length_nil] at h1 h2
  -- h2 : handoffs = suspends, h1 : avail = N + suspends - 2·handoffs
  have hho : st.handoffs = st.suspends := by omega
  rw [hbal] at h1
  have : st.avail = (N : Int) - st.suspends := by
    push_cast at h1 ⊢; omega
  rw [this]
  have : (1 : Int) ≤ st.suspends := by exact_mod_cast hsusp
  omega

/-- Witness for C3: permits `N = 1`, trace
`acquire 0; acquire 1; release; release` — the second acquire suspends, the
first release hands the permit over (decrementing `available` to `-1`), the
second release restores it to `0`, strictly below the initial `1`. -/
theorem simpleSemaphore_handoff_loses_permits_witness :
    semRun (SemState.init 1) [.acquire 0, .acquire 1, .release, .release] =
      some ⟨0, [], 0, [1], [1], 1, 1⟩ ∧
    (⟨0, [], 0, [1], [1], 1, 1⟩ : SemState).avail < 1 :=
  ⟨by decide,
   simpleSemaphore_handoff_loses_permits 1
     [.acquire 0, .acquire 1, .release, .release]
     ⟨0, [], 0, [1], [1], 1, 1⟩ (by decide) (by decide) (by decide) (by decide)⟩

/-- Safety invariant of the semaphore: whenever waiters are queued no permit
is available, and the completed-but-unreleased acquires plus the available
permits never exceed the configured count. -/
def SemInv (N : Nat) (s : SemState) : Prop :=
  (s.queue ≠ [] → s.avail ≤ 0) ∧ (s.out : Int) + max s.avail 0 ≤ N

lemma semStep_inv {N : Nat} {s s' : SemState} {op : SemOp}
    (hinv : SemInv N s) (h : semStep s op = some s') : SemInv N s' := by
  obtain ⟨hq, hb⟩ := hinv
  cases op with
  | acquire i =>
    simp only [semStep] at h
    split_ifs at h with hp <;> simp only [Option.some.injEq] at h <;> subst h
    · constructor
      · intro hne
        exact absurd (hq hne) (by omega)
      · dsimp only
        have : max s.avail 0 = s.avail := by omega
        rw [this] at hb
        push_cast
        omega
    · constructor
      · intro _; dsimp only; exact by omega
      · dsimp only; exact hb
  | release =>
    simp only [semStep] at h
    split_ifs at h with ho
    cases hqe : s.queue with
    | nil =>
      rw [hqe] at h
      simp only [Option.some.injEq] at h; subst h
      refine ⟨fun hne => absurd hqe (by simpa [hqe] using hne), ?_⟩
      simp only
      have hout : 1 ≤ s.out := Nat.one_le_iff_ne_zero.mpr ho
      push_cast
      omega
    | cons w rest =>
      rw [hqe] at h
      simp only [Option.some.injEq] at h; subst h
      have hav : s.avail ≤ 0 := hq (by simp [hqe])
      constructor
      · intro _; dsimp only; omega
      · dsimp only
        have h1 : max s.avail 0 = 0 := by omega
        rw [h1] at hb
        have h2 : max (s.avail - 1) 0 = 0 := by omega
        rw [h2]
        omega

lemma semRun_inv {N : Nat} {ops : List SemOp} :
    ∀ {s st : SemState}, SemInv N s → semRun s ops = some st → SemInv N st := by
  induction ops with
  | nil =>
    intro s st hinv h
    simp only [semRun, Option.some.injEq] at h; subst h; exact hinv
  | cons op rest ih =>
    intro s st hinv h
    simp only [semRun] at h
    cases hstep : semStep s op with
    | none => rw [hstep] at h; exact absurd h (by simp)
    | some s' => rw [hstep] at h; exact ih (semStep_inv hinv hstep) h

/-- C4 -- For a `SimpleSemaphore` initialised with `N` permits and any event
trace in which every release is performed by a completed acquirer, at most
`N` acquire() calls are outstanding at any instant.  Moreover `acquire()`
completes immediately (consuming a permit, leaving the queue untouched)
exactly when `available > 0`; otherwise the caller is appended to the wait
queue unchanged otherwise, and a release() finding a queued waiter hands the
permit to the *head* waiter directly (no return to the shared pool: `avail`
is decremented by the woken wrapper, never incremented by that release). -/
theorem simpleSemaphore_bounded_outstanding
    (N : Nat) (ops : List SemOp) (st : SemState)
    (hrun : semRun (SemState.init N) ops = some st) :
    st.out ≤ N ∧
    (∀ s s' : SemState, ∀ i : Nat, semStep s (.acquire i) = some s' →
      ((s'.out = s.out + 1 ∧ s'.avail = s.avail - 1 ∧ s'.queue = s.queue) ↔
        0 < s.avail) ∧
      (¬ 0 < s.avail →
        s'.queue = s.queue ++ [i] ∧ s'.avail = s.avail ∧ s'.out = s.out)) ∧
    (∀ s s' : SemState, ∀ w : Nat, ∀ rest : List Nat,
      semStep s .release = some s' → s.queue = w :: rest →
      s'.queue = rest ∧ s'.woken = s.woken ++ [w] ∧
        s'.avail = s.avail - 1 ∧ s'.out = s.out) := by
  refine ⟨?_, ?_, ?_⟩
  · have hinv : SemInv N (SemState.init N) := by
      constructor
      · intro h; exact absurd rfl h
      · simp [SemState.init]
    have := semRun_inv hinv hrun
    obtain ⟨-, hb⟩ := this
    have : (0 : Int) ≤ max st.avail 0 := le_max_right _ _
    omega
  · intro s s' i h
    simp only [semStep] at h
    split_ifs at h with hp <;> simp only [Option.some.injEq] at h <;> subst h
    · exact ⟨by simpa using hp, fun hc => absurd hp hc⟩
    · refine ⟨?_, fun _ => ⟨rfl, rfl, rfl⟩⟩
      simp only
      constructor
      · rintro ⟨hout, -, -⟩; omega
      · intro hc; exact absurd hc hp
  · intro s s' w rest h hqe
    simp only [semStep] at h
    split_ifs at h with ho
    rw [hqe] at h
    simp only [Option.some.injEq] at h; subst h
    exact ⟨rfl, rfl, rfl, rfl⟩

/-- Witness for C4: `N = 2`, trace `acquire 0; acquire 1; acquire 2; release`
(the third acquire suspends; the release hands the permit to it). -/
theorem simpleSemaphore_bounded_outstanding_witness :
    (semRun (SemState.init 2)
        [.acquire 0, .acquire 1, .acquire 2, .release] =
      some ⟨-1, [], 2, [2], [2], 1, 1⟩) ∧
    (⟨-1, [], 2, [2], [2], 1, 1⟩ : SemState).out ≤ 2 :=
  ⟨by decide,
   (simpleSemaphore_bounded_outstanding 2
     [.acquire 0, .acquire 1, .acquire 2, .release]
     ⟨-1, [], 2, [2], [2], 1, 1⟩ (by decide)).1⟩

lemma semStep_fifo {s s' : SemState} {op : SemOp}
    (hfifo : s.enq = s.woken ++ s.queue) (h : semStep s op = some s') :
    s'.enq = s'.woken ++ s'.queue := by
  cases op with
  | acquire i =>
    simp only [semStep] at h
    split_ifs at h <;> simp only [Option.some.injEq] at h <;> subst h
    · exact hfifo
    · simp only [hfifo, List.append_assoc]
  | release =>
    simp only [semStep] at h
    split_ifs at h with ho
    cases hqe : s.queue with
    | nil =>
      rw [hqe] at h
      simp only [Option.some.injEq] at h; subst h
      dsimp only
      simpa [hqe] using hfifo
    | cons w rest =>
      rw [hqe] at h
      simp only [Option.some.injEq] at h; subst h
      dsimp only
      rw [hfifo, hqe]
      simp

/-- C5 -- FIFO fairness of the semaphore: along any event trace, the sequence
of identities handed a permit by `release()` (in wake order) extended by the
still-queued waiters equals the sequence of identities that suspended in
`acquire()` (in call order).  In particular waiters are woken in exactly the
order in which they called `acquire()`. -/
theorem simpleSemaphore_fifo
    (N : Nat) (ops : List SemOp) (st : SemState)
    (hrun : semRun (SemState.init N) ops = some st) :
    st.enq = st.woken ++ st.queue := by
  suffices h : ∀ (l : List SemOp) (s s' : SemState),
      s.enq = s.woken ++ s.queue → semRun s l = some s' →
      s'.enq = s'.woken ++ s'.queue by
    exact h ops (SemState.init N) st (by simp [SemState.init]) hrun
  intro l
  induction l with
  | nil =>
    intro s s' hfifo hr
    simp only [semRun, Option.some.injEq] at hr; subst hr; exact hfifo
  | cons op rest ih =>
    intro s s' hfifo hr
    simp only [semRun] at hr
    cases hstep : semStep s op with
    | none => rw [hstep] at hr; exact absurd hr (by simp)
    | some s1 => rw [hstep] at hr; exact ih s1 s' (semStep_fifo hfifo hstep) hr

/-- Witness for C5: three suspended acquirers (ids 5, 6, 7) and two releases:
ids 5 and 6 are woken in enqueue order, id 7 is still queued. -/
theorem simpleSemaphore_fifo_witness :
    (semRun (SemState.init 1)
        [.acquire 4, .acquire 5, .acquire 6, .acquire 7, .release, .release] =
      some ⟨-2, [7], 1, [5, 6, 7], [5, 6], 3, 2⟩) ∧
    ([5, 6, 7] : List Nat) = [5, 6] ++ [7] :=
  ⟨by decide,
   simpleSemaphore_fifo 1
     [.acquire 4, .acquire 5, .acquire 6, .acquire 7, .release, .release]
     ⟨-2, [7], 1, [5, 6, 7], [5, 6], 3, 2⟩ (by decide)⟩

/-! ## Path utilities
(`packages/core/src/utils/PathUtil.ts`, `packages/core/src/utils/RegExpUtil.ts`,
`packages/core/src/BaseScene.ts`)

`basename` embeds Node's POSIX `path.basename`: trailing separators are
stripped, then the substring after the last separator is returned. -/

def basename (p : String) : String :=
  ((((p.toList.reverse).dropWhile (fun c => c = '/')).takeWhile
      (fun c => c ≠ '/')).reverse).asString

def listIsPre (xs ys : List Char) : Bool :=
  match xs, ys with
  | [], _ => true
  | _ :: _, [] => false
  | a :: as, b :: bs => a = b && listIsPre as bs

/-- `String.prototype.startsWith`, as a kernel-reducible list computation. -/
def strStartsWith (s pre : String) : Bool :=
  listIsPre pre.toList s.toList

/-- `PathUtil.isHiddenFile`: the basename starts with `'.'`, except the empty
name, `"."` and `".."`, which are never hidden. -/
def isHiddenFile (filePath : String) : Bool :=
  let name := basename filePath
  if name = "" ∨ name = "." ∨ name = ".." then false
  else strStartsWith name "."

/-- `RegExpUtil.tests`: some pattern matches the value.  Regular expressions
are abstracted as Boolean predicates on strings. -/
def testsRegs (testRegs : List (String → Bool)) (val : String) : Bool :=
  testRegs.any (fun pat => pat val)

/-- `BaseScene.shouldIgnorePath`. -/
def shouldIgnorePath (ignores : List (String → Bool)) (itemPath : String)
    (includeHidden : Bool) : Bool :=
  if !includeHidden && isHiddenFile itemPath then true
  else if ignores.length > 0 then testsRegs ignores itemPath
  else false

/-- C9 -- The hidden-file predicate holds exactly when the final path
component starts with `'.'` and is not the literal name `"."` or `".."`;
an entry named `.env` is skipped when `includeHidden = false` and kept when
`includeHidden = true`, and `"."` / `".."` are never hidden. -/
theorem isHiddenFile_characterisation :
    (∀ p : String, isHiddenFile p = true ↔
      (strStartsWith (basename p) "." = true ∧
        basename p ≠ "." ∧ basename p ≠ "..")) ∧
    shouldIgnorePath [] "/work/.env" false = true ∧
    shouldIgnorePath [] "/work/.env" true = false ∧
    isHiddenFile "." = false ∧ isHiddenFile ".." = false ∧
    isHiddenFile "/work/." = false ∧ isHiddenFile "/work/.." = false := by
  refine ⟨?_, by decide, by decide, by decide, by decide, by decide, by decide⟩
  intro p
  unfold isHiddenFile
  by_cases h0 : basename p = ""
  · rw [if_pos (Or.inl h0), h0]
    simp [show strStartsWith "" "." = false from by decide]
  · by_cases h1 : basename p = "."
    · rw [if_pos (Or.inr (Or.inl h1))]
      simp [h1]
    · by_cases h2 : basename p = ".."
      · rw [if_pos (Or.inr (Or.inr h2))]
        simp [h2]
      · rw [if_neg (by tauto)]
        simp [h1, h2]

/-! ## Filesystem model, options and the traversal engine
(`packages/core/src/FolderSize.ts`, `packages/core/src/BaseScene.ts`) -/

inductive EntryKind where
  | file
  | directory
  | symlink
  | other
deriving Repr, DecidableEq

structure Stat where
  dev : Nat
  ino : Nat
  size : Nat
  kind : EntryKind
deriving Repr, DecidableEq

/-- Abstract filesystem subtree rooted at some path: entry name, result of
`fs.lstat` (`none` = the call fails), result of `fs.readdir` (`none` = the
call fails; only consulted for directories). -/
inductive FSNode where
  | mk (name : String) (stat : Option Stat) (listing : Option (List FSNode))

def FSNode.name : FSNode → String
  | .mk n _ _ => n

def FSNode.stat : FSNode → Option Stat
  | .mk _ st _ => st

def FSNode.listing : FSNode → Option (List FSNode)
  | .mk _ _ l => l

structure FolderSizeError where
  path : String
  message : String

/-- User-facing `FolderSizeOptions` (`types/folderSize.ts`); `none` = the
field was not supplied. -/
structure FolderSizeOptions where
  maxDepth : Option Nat := none
  ignores : Option (List (String → Bool)) := none
  includeHidden : Option Bool := none
  includeLink : Option Bool := none
  concurrency : Option Nat := none
  ignoreErrors : Option Bool := none
  inodeCheck : Option Bool := none
  onError : Option (FolderSizeError → Bool) := none

/-- `Required<FolderSizeOptions>` held in `this.options`. -/
structure ResolvedOptions where
  maxDepth : Nat
  ignores : List (String → Bool)
  includeHidden : Bool
  includeLink : Bool
  concurrency : Nat
  ignoreErrors : Bool
  inodeCheck : Bool
  onError : Option (FolderSizeError → Bool)

/-- `Number.MAX_SAFE_INTEGER`. -/
def maxSafeInteger : Nat := 2 ^ 53 - 1

/-- The `FolderSize` constructor: `this.options = { …defaults…, ...options }`.
Note the default `onError: () => true` ("默认继续"): when the caller does not
supply a callback the merged `onError` is the constant-`true` default, so it
is still `some` — the `else if (!ignoreErrors)` branch of `handleError` can
only run if the caller explicitly passes `onError: undefined`. -/
def mergeOptions (o : FolderSizeOptions) : ResolvedOptions where
  maxDepth := o.maxDepth.getD maxSafeInteger
  ignores := o.ignores.getD []
  includeHidden := o.includeHidden.getD true
  includeLink := o.includeLink.getD true
  concurrency := o.concurrency.getD 2
  ignoreErrors := o.ignoreErrors.getD false
  inodeCheck := o.inodeCheck.getD true
  onError := some (o.onError.getD (fun _ => true))

/-- The exceptions thrown by `FolderSize`: `计算被用户停止` (callback returned
`false`), the re-thrown filesystem error message, and
`无法构建根节点 / 无法构建懒加载根节点`. -/
inductive TraverseError where
  | userStopped (path : String)
  | failed (path : String)
  | rootBuildFailed (path : String)
deriving Repr, DecidableEq

/-- `FolderSize.handleError`: offer the error to `onError` if present
(`false` ⇒ throw `计算被用户停止`), otherwise throw unless `ignoreErrors`. -/
def handleError (o : ResolvedOptions) (errPath message : String) :
    Except TraverseError Unit :=
  match o.onError with
  | some cb =>
    if cb ⟨errPath, message⟩ then .ok () else .error (.userStopped errPath)
  | none => if !o.ignoreErrors then .error (.failed errPath) else .ok ()

/-- `BaseScene.getInodeKey` builds the string `` `${stats.dev}-${stats.ino}` ``;
the pair `(dev, ino)` is its exact information content (the formatting map is
injective), so the key is embedded as the pair. -/
abbrev InodeKey := Nat × Nat

def getInodeKey (st : Stat) : InodeKey := (st.dev, st.ino)

/-- `BaseScene.checkInode`: `true` = already seen (skip me); otherwise the
key is recorded.  The updated seen-set is returned explicitly. -/
def checkInode (seen : List InodeKey) (st : Stat) : Bool × List InodeKey :=
  let key := getInodeKey st
  if key ∈ seen then (true, seen) else (false, key :: seen)

/-- The `FileSystemItem` handed to `nodeCallback` (without the raw stats
duplicates `isFile`/`isDirectory`/`isSymbolicLink`, which are recovered from
`stat.kind`). -/
structure FileSystemItem where
  path : String
  name : String
  stat : Stat
  depth : Nat
deriving Repr, DecidableEq

/-- The tree of `FileSystemItem`s for which `nodeCallback` fires during one
traversal, children in `readdir` order.  Each concrete operation (`size`,
`tree`, `lazyTree`) is its `nodeCallback` folded over this tree. -/
inductive VisitTree where
  | node (item : FileSystemItem) (children : List VisitTree)

def joinPath (p n : String) : String := p ++ "/" ++ n

mutual

/-- `traverseItem` inside `FolderSize.traverseFileSystem` — and, with `cap`
instantiated to `initialDepth` instead of `options.maxDepth`, the verbatim
copy inside `FolderSize.traverseLazyFileSystem`.  Returns the updated inode
set together with either the abort error (the promise rejection) or the
optional visit tree (`none` = the entry was skipped / returned `null`). -/
def traverseItem (o : ResolvedOptions) (cap : Nat) :
    FSNode → String → Nat → List InodeKey →
      List InodeKey × Except TraverseError (Option VisitTree)
  | .mk _ stat listing, itemPath, depth, seen =>
    if depth > cap then (seen, .ok none)
    else if shouldIgnorePath o.ignores itemPath o.includeHidden then
      (seen, .ok none)
    else
      match stat with
      | none =>
        match handleError o itemPath "无法获取文件信息" with
        | .ok _ => (seen, .ok none)
        | .error e => (seen, .error e)
      | some st =>
        let checked := if o.inodeCheck then checkInode seen st else (false, seen)
        if checked.1 then (checked.2, .ok none)
        else
          let item : FileSystemItem := ⟨itemPath, basename itemPath, st, depth⟩
          if st.kind = .directory then
            match listing with
            | none =>
              -- readdir failed: the directory node itself still completes
              match handleError o itemPath "无法读取目录" with
              | .ok _ => (checked.2, .ok (some (.node item [])))
              | .error e => (checked.2, .error e)
            | some entries =>
              let r := traverseChildren o cap entries itemPath depth checked.2
              (r.1, .ok (some (.node item r.2)))
          else (checked.2, .ok (some (.node item [])))

/-- The `SimpleSemaphore.concurrentMapFiltered` call inside the traversal:
one recursive `traverseItem` per entry; a child that throws is converted to
`null` (`errorHandler = 'ignore'` in `concurrentMap`), and `null` results are
filtered out. -/
def traverseChildren (o : ResolvedOptions) (cap : Nat) :
    List FSNode → String → Nat → List InodeKey →
      List InodeKey × List VisitTree
  | [], _, _, seen => (seen, [])
  | c :: rest, parentPath, depth, seen =>
    let r := traverseItem o cap c (joinPath parentPath c.name) (depth + 1) seen
    let rr := traverseChildren o cap rest parentPath depth r.1
    match r.2 with
    | .ok (some t) => (rr.1, t :: rr.2)
    | _ => (rr.1, rr.2)

end

/-- Definitional unfolding of `traverseItem`: failing `lstat`. -/
lemma traverseItem_eq_statNone (o : ResolvedOptions) (cap : Nat) (nm : String)
    (listing : Option (List FSNode))
    (itemPath : String) (depth : Nat) (seen : List InodeKey) :
    traverseItem o cap (.mk nm none listing) itemPath depth seen =
      (if depth > cap then (seen, .ok none)
       else if shouldIgnorePath o.ignores itemPath o.includeHidden = true then
        (seen, .ok none)
       else
        match handleError o itemPath "无法获取文件信息" with
        | .ok _ => (seen, .ok none)
        | .error e => (seen, .error e)) := rfl

/-- Definitional unfolding of `traverseItem`: `lstat` succeeded, `readdir`
fails (relevant only in the directory branch). -/
lemma traverseItem_eq_listNone (o : ResolvedOptions) (cap : Nat) (nm : String)
    (st : Stat) (itemPath : String) (depth : Nat) (seen : List InodeKey) :
    traverseItem o cap (.mk nm (some st) none) itemPath depth seen =
      (if depth > cap then (seen, .ok none)
       else if shouldIgnorePath o.ignores itemPath o.includeHidden = true then
        (seen, .ok none)
       else if (if o.inodeCheck then checkInode seen st else (false, seen)).1 =
          true then
        ((if o.inodeCheck then checkInode seen st else (false, seen)).2,
          .ok none)
       else if st.kind = EntryKind.directory then
        (match handleError o itemPath "无法读取目录" with
         | .ok _ =>
           ((if o.inodeCheck then checkInode seen st else (false, seen)).2,
             .ok (some (.node ⟨itemPath, basename itemPath, st, depth⟩ [])))
         | .error e =>
           ((if o.inodeCheck then checkInode seen st else (false, seen)).2,
             .error e))
       else
        ((if o.inodeCheck then checkInode seen st else (false, seen)).2,
          .ok (some (.node ⟨itemPath, basename itemPath, st, depth⟩ [])))) :=
  rfl

/-- Definitional unfolding of `traverseItem`: `lstat` and `readdir` both
succeeded. -/
lemma traverseItem_eq_listSome (o : ResolvedOptions) (cap : Nat) (nm : String)
    (st : Stat) (entries : List FSNode)
    (itemPath : String) (depth : Nat) (seen : List InodeKey) :
    traverseItem o cap (.mk nm (some st) (some entries)) itemPath depth seen =
      (if depth > cap then (seen, .ok none)
       else if shouldIgnorePath o.ignores itemPath o.includeHidden = true then
        (seen, .ok none)
       else if (if o.inodeCheck then checkInode seen st else (false, seen)).1 =
          true then
        ((if o.inodeCheck then checkInode seen st else (false, seen)).2,
          .ok none)
       else if st.kind = EntryKind.directory then
        ((traverseChildren o cap entries itemPath depth
            (if o.inodeCheck then checkInode seen st else (false, seen)).2).1,
          .ok (some (.node ⟨itemPath, basename itemPath, st, depth⟩
            (traverseChildren o cap entries itemPath depth
              (if o.inodeCheck then checkInode seen st
                else (false, seen)).2).2)))
       else
        ((if o.inodeCheck then checkInode seen st else (false, seen)).2,
          .ok (some (.node ⟨itemPath, basename itemPath, st, depth⟩ [])))) :=
  rfl

lemma traverseChildren_nil (o : ResolvedOptions) (cap : Nat)
    (parentPath : String) (depth : Nat) (seen : List InodeKey) :
    traverseChildren o cap [] parentPath depth seen = (seen, []) := rfl

lemma traverseChildren_cons (o : ResolvedOptions) (cap : Nat) (c : FSNode)
    (rest : List FSNode) (parentPath : String) (depth : Nat)
    (seen : List InodeKey) :
    traverseChildren o cap (c :: rest) parentPath depth seen =
      (let r := traverseItem o cap c (joinPath parentPath c.name) (depth + 1)
        seen
       let rr := traverseChildren o cap rest parentPath depth r.1
       match r.2 with
       | .ok (some t) => (rr.1, t :: rr.2)
       | _ => (rr.1, rr.2)) := rfl

mutual

def vflatten : VisitTree → List FileSystemItem
  | .node item children => vflattenList children ++ [item]

def vflattenList : List VisitTree → List FileSystemItem
  | [] => []
  | t :: ts => vflatten t ++ vflattenList ts

end

structure FolderSizeResult where
  size : Nat
  fileCount : Nat
  directoryCount : Nat
  linkCount : Nat
deriving Repr, DecidableEq

/-- One `nodeCallback` invocation of `calculateSizeNodeJs`, as the increment
it applies to `(totalSize, fileCount, directoryCount, linkCount)`:
symbolic links always bump `linkCount` and contribute their size only when
`includeLink`; everything else adds its size; directories other than the
root path bump `directoryCount`; files bump `fileCount`.
`buildTreeNodeJs` and `buildLazyTreeNodeJs` apply the same counting. -/
def contribution (o : ResolvedOptions) (rootPath : String)
    (i : FileSystemItem) : FolderSizeResult :=
  ⟨if i.stat.kind = .symlink then (if o.includeLink then i.stat.size else 0)
    else i.stat.size,
   if i.stat.kind = .file then 1 else 0,
   if i.stat.kind = .directory ∧ i.path ≠ rootPath then 1 else 0,
   if i.stat.kind = .symlink then 1 else 0⟩

def addResult (a b : FolderSizeResult) : FolderSizeResult :=
  ⟨a.size + b.size, a.fileCount + b.fileCount,
   a.directoryCount + b.directoryCount, a.linkCount + b.linkCount⟩

def aggregate (o : ResolvedOptions) (rootPath : String)
    (l : List FileSystemItem) : FolderSizeResult :=
  l.foldr (fun i acc => addResult (contribution o rootPath i) acc) ⟨0, 0, 0, 0⟩

/-- `FolderSize.size` / `calculateSizeNodeJs`: a `null` root yields the
all-zero result (no callback ever fired); an abort rejects. -/
def size (o : ResolvedOptions) (root : FSNode) (rootPath : String) :
    Except TraverseError FolderSizeResult :=
  match traverseItem o o.maxDepth root rootPath 0 [] with
  | (_, .error e) => .error e
  | (_, .ok none) => .ok ⟨0, 0, 0, 0⟩
  | (_, .ok (some t)) => .ok (aggregate o rootPath (vflatten t))

inductive NodeType where
  | file
  | directory
  | link
deriving Repr, DecidableEq

/-- `item.isSymbolicLink ? 'link' : (item.isDirectory ? 'directory' : 'file')`. -/
def typeOf (k : EntryKind) : NodeType :=
  if k = .symlink then .link else if k = .directory then .directory else .file

inductive TreeNode where
  | mk (name : String) (path : String) (type : NodeType) (size : Option Nat)
      (children : Option (List TreeNode)) (depth : Nat)

mutual

/-- The `nodeCallback` of `buildTreeNodeJs`, folded over the visit tree:
links carry a size only when `includeLink`, files always, directories carry
their children instead. -/
def buildTreeNode (o : ResolvedOptions) : VisitTree → TreeNode
  | .node i cs =>
    .mk i.name i.path (typeOf i.stat.kind)
      (if i.stat.kind = .symlink then
        (if o.includeLink then some i.stat.size else none)
       else if i.stat.kind = .file then some i.stat.size else none)
      (if i.stat.kind = .directory then some (buildTreeNodeList o cs) else none)
      i.depth

def buildTreeNodeList (o : ResolvedOptions) : List VisitTree → List TreeNode
  | [] => []
  | t :: ts => buildTreeNode o t :: buildTreeNodeList o ts

end

structure FolderTreeResult where
  tree : TreeNode
  fileCount : Nat
  directoryCount : Nat
  linkCount : Nat

/-- `FolderSize.tree` / `buildTreeNodeJs`: a `null` root throws
`无法构建根节点`. -/
def tree (o : ResolvedOptions) (root : FSNode) (rootPath : String) :
    Except TraverseError FolderTreeResult :=
  match traverseItem o o.maxDepth root rootPath 0 [] with
  | (_, .error e) => .error e
  | (_, .ok none) => .error (.rootBuildFailed rootPath)
  | (_, .ok (some t)) =>
    let agg := aggregate o rootPath (vflatten t)
    .ok ⟨buildTreeNode o t, agg.fileCount, agg.directoryCount, agg.linkCount⟩

inductive LazyTreeNode where
  | mk (name : String) (path : String) (type : NodeType) (size : Option Nat)
      (children : Option (List LazyTreeNode)) (depth : Nat)
      (loaded : Bool) (hasChildren : Option Bool)

def LazyTreeNode.name : LazyTreeNode → String
  | .mk n _ _ _ _ _ _ _ => n

def LazyTreeNode.path : LazyTreeNode → String
  | .mk _ p _ _ _ _ _ _ => p

def LazyTreeNode.type : LazyTreeNode → NodeType
  | .mk _ _ t _ _ _ _ _ => t

def LazyTreeNode.size : LazyTreeNode → Option Nat
  | .mk _ _ _ s _ _ _ _ => s

def LazyTreeNode.children : LazyTreeNode → Option (List LazyTreeNode)
  | .mk _ _ _ _ c _ _ _ => c

def LazyTreeNode.depth : LazyTreeNode → Nat
  | .mk _ _ _ _ _ d _ _ => d

def LazyTreeNode.loaded : LazyTreeNode → Bool
  | .mk _ _ _ _ _ _ l _ => l

def LazyTreeNode.hasChildren : LazyTreeNode → Option Bool
  | .mk _ _ _ _ _ _ _ h => h

mutual

/-- The `nodeCallback` of `buildLazyTreeNodeJs`, folded over the visit tree
produced with `cap = initialDepth`: nodes within the initial depth are
`loaded`; directories at the boundary stay unloaded with `hasChildren`
unresolved. -/
def buildLazyTreeNode (o : ResolvedOptions) (initialDepth : Nat) :
    VisitTree → LazyTreeNode
  | .node i cs =>
    if i.stat.kind = .directory then
      if i.depth < initialDepth then
        .mk i.name i.path .directory none
          (some (buildLazyTreeNodeList o initialDepth cs)) i.depth true
          (some (decide (0 < cs.length)))
      else
        .mk i.name i.path .directory none
          (some (buildLazyTreeNodeList o initialDepth cs)) i.depth false none
    else
      .mk i.name i.path (typeOf i.stat.kind)
        (if i.stat.kind = .symlink then
          (if o.includeLink then some i.stat.size else none)
         else if i.stat.kind = .file then some i.stat.size else none)
        none i.depth (decide (i.depth < initialDepth)) none

def buildLazyTreeNodeList (o : ResolvedOptions) (initialDepth : Nat) :
    List VisitTree → List LazyTreeNode
  | [] => []
  | t :: ts =>
    buildLazyTreeNode o initialDepth t :: buildLazyTreeNodeList o initialDepth ts

end

mutual

/-- `setHasChildrenForUnloadedNodes`, with `fs.readdir` abstracted as the
oracle `rd` (`none` = the call throws, in which case `hasChildren := false`). -/
def setHasChildrenForUnloadedNodes (rd : String → Option (List String)) :
    LazyTreeNode → LazyTreeNode
  | .mk name path type size children depth loaded hasChildren =>
    let hc :=
      if type = .directory ∧ loaded = false ∧ hasChildren = none then
        (match rd path with
         | some entries => some (decide (0 < entries.length))
         | none => some false)
      else hasChildren
    let cs :=
      match children with
      | none => none
      | some l => some (setHasChildrenList rd l)
    .mk name path type size cs depth loaded hc

def setHasChildrenList (rd : String → Option (List String)) :
    List LazyTreeNode → List LazyTreeNode
  | [] => []
  | n :: ns => setHasChildrenForUnloadedNodes rd n :: setHasChildrenList rd ns

end

structure LazyTreeResult where
  tree : LazyTreeNode
  loadedFileCount : Nat
  loadedDirectoryCount : Nat
  loadedLinkCount : Nat

/-- `FolderSize.lazyTree` / `buildLazyTreeNodeJs`: the traversal runs with
the depth bound `initialDepth` (via `traverseLazyFileSystem`), a `null` root
throws `无法构建懒加载根节点`, and `preCheckChildren` (default `false`)
optionally resolves `hasChildren` for unloaded directory nodes. -/
def lazyTree (o : ResolvedOptions) (initialDepth : Nat)
    (preCheckChildren : Bool) (rd : String → Option (List String))
    (root : FSNode) (rootPath : String) :
    Except TraverseError LazyTreeResult :=
  match traverseItem o initialDepth root rootPath 0 [] with
  | (_, .error e) => .error e
  | (_, .ok none) => .error (.rootBuildFailed rootPath)
  | (_, .ok (some t)) =>
    let agg := aggregate o rootPath (vflatten t)
    let node := buildLazyTreeNode o initialDepth t
    let node' :=
      if preCheckChildren then setHasChildrenForUnloadedNodes rd node else node
    .ok ⟨node', agg.fileCount, agg.directoryCount, agg.linkCount⟩

/-- `FolderSize.buildSingleLazyNode`: one child of an expanded node — ignore
filter, `lstat`, inode dedup, then a single-level `LazyTreeNode` (directories
unloaded with empty children; `preCheckChildren` optionally resolves
`hasChildren` by a plain `readdir`). -/
def buildSingleLazyNode (o : ResolvedOptions) (child : FSNode)
    (itemPath : String) (depth : Nat) (preCheckChildren : Bool)
    (seen : List InodeKey) :
    List InodeKey × Except TraverseError (Option LazyTreeNode) :=
  if shouldIgnorePath o.ignores itemPath o.includeHidden then (seen, .ok none)
  else
    match child.stat with
    | none =>
      match handleError o itemPath "无法获取文件信息" with
      | .ok _ => (seen, .ok none)
      | .error e => (seen, .error e)
    | some st =>
      let checked := if o.inodeCheck then checkInode seen st else (false, seen)
      if checked.1 then (checked.2, .ok none)
      else
        if st.kind = .directory then
          let hc :=
            if preCheckChildren then
              (match child.listing with
               | some entries => some (decide (0 < entries.length))
               | none => some false)
            else none
          (checked.2, .ok (some (.mk (basename itemPath) itemPath .directory
            none (some []) depth false hc)))
        else
          (checked.2, .ok (some (.mk (basename itemPath) itemPath
            (typeOf st.kind)
            (if st.kind = .symlink then
              (if o.includeLink then some st.size else none)
             else if st.kind = .file then some st.size else none)
            none depth true none)))

/-- The `concurrentMapFiltered` call inside `expandNode`: one
`buildSingleLazyNode` per entry (with `preCheckChildren = false`), thrown
errors converted to `null`, `null`s filtered. -/
def expandChildren (o : ResolvedOptions) (parentPath : String)
    (childDepth : Nat) :
    List FSNode → List InodeKey → List InodeKey × List LazyTreeNode
  | [], seen => (seen, [])
  | c :: rest, seen =>
    let r := buildSingleLazyNode o c (joinPath parentPath c.name) childDepth
      false seen
    let rr := expandChildren o parentPath childDepth rest r.1
    match r.2 with
    | .ok (some n) => (rr.1, n :: rr.2)
    | _ => (rr.1, rr.2)

/-- `FolderSize.expandNode`: no-op unless the node is an unloaded directory;
otherwise `fs.readdir(node.path)` (abstracted as `fsAt.listing` where `fsAt`
is the filesystem subtree at `node.path`), one `buildSingleLazyNode` per
entry, then `children`, `loaded := true` and
`hasChildren := children.length > 0` are set.  A `readdir` failure goes to
`handleError` and leaves the node untouched. -/
def expandNode (o : ResolvedOptions) (fsAt : FSNode) (node : LazyTreeNode) :
    LazyTreeNode × Except TraverseError Unit :=
  if node.type ≠ NodeType.directory ∨ node.loaded = true then (node, .ok ())
  else
    match fsAt.listing with
    | none =>
      match handleError o node.path "无法展开节点" with
      | .ok _ => (node, .ok ())
      | .error e => (node, .error e)
    | some entries =>
      let r := expandChildren o node.path (node.depth + 1) entries []
      (.mk node.name node.path node.type node.size (some r.2) node.depth true
        (some (decide (0 < r.2.length))), .ok ())

/-! ## Error-policy behaviour (C1, C2, C10) -/

/-- C1 -- The claim says: with no error callback supplied and
`ignoreErrors = false`, a failing metadata fetch aborts the whole operation
with an error and no partial result.  The code disagrees: the constructor
installs the default callback `onError: () => true`, so `handleError` always
takes the callback branch and never consults `ignoreErrors` — `size` on an
inaccessible root with `ignoreErrors = false` and no callback *resolves*
with the all-zero result (the repository's own test
`should handle non-existent directory with ignoreErrors: false` expects a
rejection here).  This theorem evaluates the code at that failing input. -/
theorem size_ignoreErrorsFalse_noCallback_still_resolves :
    size (mergeOptions { ignoreErrors := some false })
        (.mk "non-existent" none none) "/tmp/non-existent" =
      .ok ⟨0, 0, 0, 0⟩ ∧
    (∀ p m, handleError (mergeOptions { ignoreErrors := some false }) p m =
      .ok ()) :=
  ⟨rfl, fun _ _ => rfl⟩

/-- C2 -- The claim says: an error callback returning `false` aborts the
entire traversal from any depth.  In the code the abort exception thrown by
`handleError` inside a child task is caught by
`SimpleSemaphore.concurrentMap(…, 'ignore')` and converted to `null`, so a
callback returning `false` for an entry at depth 1 does *not* abort: the
traversal completes and merely omits that entry (first conjunct).  Only at
the root (depth 0), where `traverseItem` is invoked outside `concurrentMap`,
does the thrown `计算被用户停止` error reject the whole operation (second
conjunct). -/
theorem onError_false_swallowed_below_root :
    size (mergeOptions { onError := some (fun _ => false) })
        (.mk "r" (some ⟨1, 1, 0, .directory⟩)
          (some [.mk "bad" none none])) "/r" =
      .ok ⟨0, 0, 0, 0⟩ ∧
    size (mergeOptions { onError := some (fun _ => false) })
        (.mk "r" none none) "/r" =
      .error (.userStopped "/r") :=
  ⟨rfl, rfl⟩

lemma traverseItem_root_none_cap {o : ResolvedOptions} {root : FSNode}
    {rootPath : String} {cap : Nat}
    (h : (traverseItem o cap root rootPath 0 []).2 = .ok none) :
    ∀ cap' : Nat, traverseItem o cap' root rootPath 0 [] = ([], .ok none) := by
  intro cap'
  obtain ⟨n, st, li⟩ := root
  cases st with
  | none =>
    rw [traverseItem_eq_statNone] at h ⊢
    rw [if_neg (by omega)] at h ⊢
    by_cases hig : shouldIgnorePath o.ignores rootPath o.includeHidden = true
    · rw [if_pos hig] at h ⊢
    · rw [if_neg hig] at h ⊢
      cases he : handleError o rootPath "无法获取文件信息" with
      | ok u => cases u; rfl
      | error e => rw [he] at h; exact absurd h (by simp)
  | some s =>
    have hc1 : (if o.inodeCheck then checkInode [] s else (false, [])).1 =
        false := by
      by_cases hic : o.inodeCheck <;> simp [hic, checkInode]
    cases li with
    | none =>
      rw [traverseItem_eq_listNone] at h ⊢
      rw [if_neg (by omega)] at h ⊢
      by_cases hig : shouldIgnorePath o.ignores rootPath o.includeHidden = true
      · rw [if_pos hig] at h ⊢
      · exfalso
        rw [if_neg hig, if_neg (by simp [hc1])] at h
        by_cases hk : s.kind = EntryKind.directory
        · rw [if_pos hk] at h
          cases he : handleError o rootPath "无法读取目录" <;> rw [he] at h <;>
            exact absurd h (by simp)
        · rw [if_neg hk] at h; exact absurd h (by simp)
    | some entries =>
      rw [traverseItem_eq_listSome] at h ⊢
      rw [if_neg (by omega)] at h ⊢
      by_cases hig : shouldIgnorePath o.ignores rootPath o.includeHidden = true
      · rw [if_pos hig] at h ⊢
      · exfalso
        rw [if_neg hig, if_neg (by simp [hc1])] at h
        by_cases hk : s.kind = EntryKind.directory
        · rw [if_pos hk] at h; exact absurd h (by simp)
        · rw [if_neg hk] at h; exact absurd h (by simp)

/-- C10 -- When the traversal of the root path yields no node (root ignored,
or its metadata fetch failed and the policy swallowed it), `tree` and
`lazyTree` reject with the respective root-build errors while `size`
resolves with the all-zero result. -/
theorem nullRoot_tree_rejects_size_resolves
    (o : ResolvedOptions) (root : FSNode) (rootPath : String)
    (initialDepth : Nat) (preCheckChildren : Bool)
    (rd : String → Option (List String))
    (h : (traverseItem o o.maxDepth root rootPath 0 []).2 = .ok none) :
    tree o root rootPath = .error (.rootBuildFailed rootPath) ∧
    lazyTree o initialDepth preCheckChildren rd root rootPath =
      .error (.rootBuildFailed rootPath) ∧
    size o root rootPath = .ok ⟨0, 0, 0, 0⟩ := by
  have hall := traverseItem_root_none_cap h
  refine ⟨?_, ?_, ?_⟩
  · rw [tree, hall o.maxDepth]
  · rw [lazyTree, hall initialDepth]
  · rw [size, hall o.maxDepth]

/-- Witness for C10: the root path matches an ignore pattern, so the
traversal yields no node. -/
theorem nullRoot_tree_rejects_size_resolves_witness :
    (traverseItem (mergeOptions { ignores := some [fun _ => true] })
        maxSafeInteger (.mk "r" (some ⟨1, 1, 0, .directory⟩) (some []))
        "/r" 0 []).2 = .ok none ∧
    tree (mergeOptions { ignores := some [fun _ => true] })
        (.mk "r" (some ⟨1, 1, 0, .directory⟩) (some [])) "/r" =
      .error (.rootBuildFailed "/r") :=
  ⟨rfl,
   (nullRoot_tree_rejects_size_resolves
     (mergeOptions { ignores := some [fun _ => true] })
     (.mk "r" (some ⟨1, 1, 0, .directory⟩) (some [])) "/r" 1 false
     (fun _ => none) rfl).1⟩

/-! ## Lazy-node expansion (C8) -/

lemma buildSingleLazyNode_dir_unloaded (o : ResolvedOptions) (c : FSNode)
    (itemPath : String) (depth : Nat) (pc : Bool) (seen : List InodeKey) :
    ∀ n, (buildSingleLazyNode o c itemPath depth pc seen).2 = .ok (some n) →
      n.type = NodeType.directory →
      n.loaded = false ∧ n.children = some [] := by
  intro n hn hdir
  obtain ⟨cn, cst, cli⟩ := c
  by_cases hig : shouldIgnorePath o.ignores itemPath o.includeHidden = true
  · simp [buildSingleLazyNode, hig] at hn
  · cases cst with
    | none =>
      cases he : handleError o itemPath "无法获取文件信息" with
      | ok u => simp [buildSingleLazyNode, hig, FSNode.stat, he] at hn
      | error e => simp [buildSingleLazyNode, hig, FSNode.stat, he] at hn
    | some st =>
      by_cases hdup :
          (if o.inodeCheck then checkInode seen st else (false, seen)).1 = true
      · simp [buildSingleLazyNode, hig, FSNode.stat, hdup] at hn
      · by_cases hk : st.kind = EntryKind.directory
        · rw [buildSingleLazyNode] at hn
          rw [if_neg hig] at hn
          revert hn
          dsimp only [FSNode.stat]
          rw [if_neg hdup, if_pos hk]
          intro hn
          obtain rfl : _ = n := Option.some.inj (Except.ok.inj hn)
          exact ⟨rfl, rfl⟩
        · rw [buildSingleLazyNode] at hn
          rw [if_neg hig] at hn
          revert hn
          dsimp only [FSNode.stat]
          rw [if_neg hdup, if_neg hk]
          intro hn
          obtain rfl : _ = n := Option.some.inj (Except.ok.inj hn)
          exfalso
          revert hdir
          simp only [LazyTreeNode.type, typeOf]
          split_ifs <;> simp_all

lemma expandChildren_dirs_unloaded (o : ResolvedOptions) (p : String)
    (d : Nat) :
    ∀ (entries : List FSNode) (seen : List InodeKey),
      ∀ n ∈ (expandChildren o p d entries seen).2,
        n.type = NodeType.directory →
        n.loaded = false ∧ n.children = some [] := by
  intro entries
  induction entries with
  | nil => intro seen n hn; simp [expandChildren] at hn
  | cons c rest ih =>
    intro seen n hn hdir
    simp only [expandChildren] at hn
    split at hn
    case _ t heq =>
      rcases List.mem_cons.mp hn with hn | hn
      · subst hn
        exact buildSingleLazyNode_dir_unloaded o c (joinPath p c.name) d false
          seen n heq hdir
      · exact ih _ n hn hdir
    case _ =>
      exact ih _ n hn hdir

/-- C8 -- `expandNode` is a no-op whenever the node is already loaded or is
not a directory (so re-expansion changes nothing); otherwise, on a
successful `readdir`, it builds the node's children exactly one level deep
(directory children come back unloaded with empty child lists), sets
`loaded := true`, sets `children`, and sets `hasChildren` to whether the
children list is non-empty; the expanded node is then loaded, so a second
expansion is a no-op. -/
theorem expandNode_spec (o : ResolvedOptions) (fsAt : FSNode)
    (node : LazyTreeNode) :
    ((node.loaded = true ∨ node.type ≠ NodeType.directory) →
      expandNode o fsAt node = (node, .ok ())) ∧
    (node.loaded = false → node.type = NodeType.directory →
      ∀ entries, fsAt.listing = some entries →
      ∀ cs, cs = (expandChildren o node.path (node.depth + 1) entries []).2 →
        expandNode o fsAt node =
          (.mk node.name node.path node.type node.size (some cs) node.depth
            true (some (decide (0 < cs.length))), .ok ()) ∧
        (∀ n ∈ cs, n.type = NodeType.directory →
          n.loaded = false ∧ n.children = some []) ∧
        (∀ fsAt' : FSNode,
          expandNode o fsAt'
              (.mk node.name node.path node.type node.size (some cs) node.depth
                true (some (decide (0 < cs.length)))) =
            (.mk node.name node.path node.type node.size (some cs) node.depth
              true (some (decide (0 < cs.length))), .ok ()))) := by
  constructor
  · intro hcase
    rw [expandNode, if_pos]
    tauto
  · intro hload hdir entries hli cs hcs
    refine ⟨?_, ?_, ?_⟩
    · rw [expandNode, if_neg (by simp [hload, hdir]), hli]
      dsimp only
      rw [← hcs]
    · intro n hn hty
      rw [hcs] at hn
      exact expandChildren_dirs_unloaded o node.path (node.depth + 1) entries
        [] n hn hty
    · intro fsAt'
      rw [expandNode, if_pos]
      right
      simp [LazyTreeNode.loaded]

/-- Witness for C8: expanding an unloaded directory node whose directory on
disk contains one 3-byte file and one empty subdirectory; also the no-op case
on an already-loaded node. -/
theorem expandNode_spec_witness :
    expandNode (mergeOptions {})
        (.mk "d" (some ⟨1, 2, 0, .directory⟩)
          (some [.mk "f" (some ⟨1, 3, 3, .file⟩) none,
                 .mk "sub" (some ⟨1, 4, 0, .directory⟩) (some [])]))
        (.mk "d" "/r/d" .directory none (some []) 1 false none) =
      (.mk "d" "/r/d" .directory none
        (some [.mk "f" "/r/d/f" .file (some 3) none 2 true none,
               .mk "sub" "/r/d/sub" .directory none (some []) 2 false none])
        1 true (some true), .ok ()) ∧
    expandNode (mergeOptions {}) (.mk "d" (some ⟨1, 2, 0, .directory⟩) none)
        (.mk "d" "/r/d" .directory none (some []) 1 true (some true)) =
      (.mk "d" "/r/d" .directory none (some []) 1 true (some true), .ok ()) := by
  constructor
  · have h := (expandNode_spec (mergeOptions {})
      (.mk "d" (some ⟨1, 2, 0, .directory⟩)
        (some [.mk "f" (some ⟨1, 3, 3, .file⟩) none,
               .mk "sub" (some ⟨1, 4, 0, .directory⟩) (some [])]))
      (.mk "d" "/r/d" .directory none (some []) 1 false none)).2
      rfl rfl _ rfl _ rfl
    exact h.1
  · exact (expandNode_spec (mergeOptions {})
      (.mk "d" (some ⟨1, 2, 0, .directory⟩) none)
      (.mk "d" "/r/d" .directory none (some []) 1 true (some true))).1
      (Or.inl rfl)

/-! ## Canonical description of what a traversal visits (towards C6, C7)

`entriesTree` lists the `FileSystemItem`s that pass the depth bound, the
ignore filter and the `lstat` step, in the order in which the engine calls
`nodeCallback` on them — i.e. the visit list of a traversal with
`inodeCheck = false` (when the error policy swallows failures).  The
hard-link claims are settled by relating the real traversal to aggregates
over this list. -/

mutual

def entriesTree (o : ResolvedOptions) (cap : Nat) :
    FSNode → String → Nat → List FileSystemItem
  | .mk _ stat listing, itemPath, depth =>
    if depth > cap then []
    else if shouldIgnorePath o.ignores itemPath o.includeHidden = true then []
    else
      match stat with
      | none => []
      | some st =>
        if st.kind = EntryKind.directory then
          match listing with
          | none => [⟨itemPath, basename itemPath, st, depth⟩]
          | some entries =>
            entriesForest o cap entries itemPath depth ++
              [⟨itemPath, basename itemPath, st, depth⟩]
        else [⟨itemPath, basename itemPath, st, depth⟩]

def entriesForest (o : ResolvedOptions) (cap : Nat) :
    List FSNode → String → Nat → List FileSystemItem
  | [], _, _ => []
  | c :: rest, parentPath, depth =>
    entriesTree o cap c (joinPath parentPath c.name) (depth + 1) ++
      entriesForest o cap rest parentPath depth

end

lemma entriesTree_eq_statNone (o : ResolvedOptions) (cap : Nat) (nm : String)
    (listing : Option (List FSNode)) (itemPath : String) (depth : Nat) :
    entriesTree o cap (.mk nm none listing) itemPath depth =
      (if depth > cap then []
       else if shouldIgnorePath o.ignores itemPath o.includeHidden = true then
        []
       else []) := rfl

lemma entriesTree_eq_listNone (o : ResolvedOptions) (cap : Nat) (nm : String)
    (st : Stat) (itemPath : String) (depth : Nat) :
    entriesTree o cap (.mk nm (some st) none) itemPath depth =
      (if depth > cap then []
       else if shouldIgnorePath o.ignores itemPath o.includeHidden = true then
        []
       else [⟨itemPath, basename itemPath, st, depth⟩]) := by
  have h : entriesTree o cap (.mk nm (some st) none) itemPath depth =
      (if depth > cap then []
       else if shouldIgnorePath o.ignores itemPath o.includeHidden = true then
        []
       else
        if st.kind = EntryKind.directory then
          [(⟨itemPath, basename itemPath, st, depth⟩ : FileSystemItem)]
        else [⟨itemPath, basename itemPath, st, depth⟩]) := rfl
  rw [h]
  split_ifs <;> rfl

lemma entriesTree_eq_listSome (o : ResolvedOptions) (cap : Nat) (nm : String)
    (st : Stat) (entries : List FSNode) (itemPath : String) (depth : Nat) :
    entriesTree o cap (.mk nm (some st) (some entries)) itemPath depth =
      (if depth > cap then []
       else if shouldIgnorePath o.ignores itemPath o.includeHidden = true then
        []
       else
        if st.kind = EntryKind.directory then
          entriesForest o cap entries itemPath depth ++
            [⟨itemPath, basename itemPath, st, depth⟩]
        else [⟨itemPath, basename itemPath, st, depth⟩]) := rfl

lemma entriesForest_nil (o : ResolvedOptions) (cap : Nat)
    (parentPath : String) (depth : Nat) :
    entriesForest o cap [] parentPath depth = [] := rfl

lemma entriesForest_cons (o : ResolvedOptions) (cap : Nat) (c : FSNode)
    (rest : List FSNode) (parentPath : String) (depth : Nat) :
    entriesForest o cap (c :: rest) parentPath depth =
      entriesTree o cap c (joinPath parentPath c.name) (depth + 1) ++
        entriesForest o cap rest parentPath depth := rfl

def vflattenOpt : Option VisitTree → List FileSystemItem
  | none => []
  | some t => vflatten t

def keyOfItem (i : FileSystemItem) : InodeKey := getInodeKey i.stat

def keysOfList (l : List FileSystemItem) : List InodeKey := l.map keyOfItem

lemma aggregate_append (o : ResolvedOptions) (rootPath : String)
    (l1 l2 : List FileSystemItem) :
    aggregate o rootPath (l1 ++ l2) =
      addResult (aggregate o rootPath l1) (aggregate o rootPath l2) := by
  induction l1 with
  | nil =>
    simp [aggregate, addResult]
  | cons i rest ih =>
    simp only [aggregate, List.foldr_cons, List.cons_append] at *
    rw [ih]
    simp [addResult, Nat.add_assoc]

lemma aggregate_single (o : ResolvedOptions) (rootPath : String)
    (i : FileSystemItem) :
    aggregate o rootPath [i] = contribution o rootPath i := by
  simp [aggregate, addResult, contribution]

/-- Weight of one inode key in the accumulated total size: symbolic links
contribute only when `includeLink`; every other kind contributes its size. -/
def wOf (o : ResolvedOptions) (σ : InodeKey → Nat) (κ : InodeKey → EntryKind)
    (k : InodeKey) : Nat :=
  if κ k = EntryKind.symlink then (if o.includeLink then σ k else 0) else σ k

/-- Aggregate predicted from the key *set* of the visited candidates: with
hard-link dedup enabled every distinct new key is counted exactly once.
`σ`/`κ` give the (physically well-defined) size and kind of each key. -/
def canonicalResult (o : ResolvedOptions) (σ : InodeKey → Nat)
    (κ : InodeKey → EntryKind) (E : List FileSystemItem)
    (s : List InodeKey) : FolderSizeResult :=
  ⟨Finset.sum ((keysOfList E).toFinset \ s.toFinset) (wOf o σ κ),
   (((keysOfList E).toFinset \ s.toFinset).filter
      (fun k => κ k = EntryKind.file)).card,
   (((keysOfList E).toFinset \ s.toFinset).filter
      (fun k => κ k = EntryKind.directory)).card,
   (((keysOfList E).toFinset \ s.toFinset).filter
      (fun k => κ k = EntryKind.symlink)).card⟩

/-- Each visited candidate's stat is determined by its inode key — true of
every real filesystem, where a key denotes one physical object. -/
def agrees (σ : InodeKey → Nat) (κ : InodeKey → EntryKind)
    (E : List FileSystemItem) : Prop :=
  ∀ i ∈ E, i.stat.size = σ (keyOfItem i) ∧ i.stat.kind = κ (keyOfItem i)

/-- Directory keys occur at most once among the visited candidates and the
already-seen keys — real directories cannot be hard-linked. -/
def dirKeysUnique (κ : InodeKey → EntryKind) (E : List FileSystemItem)
    (s : List InodeKey) : Prop :=
  ∀ k, κ k = EntryKind.directory →
    (keysOfList E).count k + (if k ∈ s then 1 else 0) ≤ 1

def offRoot (rootPath : String) (E : List FileSystemItem) : Prop :=
  ∀ i ∈ E, i.path ≠ rootPath

/-- The error policy lets the traversal continue on every failure (true in
particular of the constructor's defaults). -/
def errorsSwallowed (o : ResolvedOptions) : Prop :=
  ∀ p m, handleError o p m = .ok ()

lemma union_sdiff_decomp {α : Type} [DecidableEq α] (A B s : Finset α) :
    (A ∪ B) \ s = (A \ s) ∪ (B \ (s ∪ A)) := by
  ext k
  simp only [Finset.mem_sdiff, Finset.mem_union]
  tauto

lemma union_sdiff_disjoint {α : Type} [DecidableEq α] (A B s : Finset α) :
    Disjoint (A \ s) (B \ (s ∪ A)) := by
  rw [Finset.disjoint_left]
  intro k hk1 hk2
  simp only [Finset.mem_sdiff, Finset.mem_union] at hk1 hk2
  tauto

lemma canonicalResult_nil (o : ResolvedOptions) (σ : InodeKey → Nat)
    (κ : InodeKey → EntryKind) (s : List InodeKey) :
    canonicalResult o σ κ [] s = ⟨0, 0, 0, 0⟩ := by
  simp [canonicalResult, keysOfList]

lemma canonicalResult_single_mem (o : ResolvedOptions) (σ : InodeKey → Nat)
    (κ : InodeKey → EntryKind) (i : FileSystemItem) (s : List InodeKey)
    (h : keyOfItem i ∈ s) :
    canonicalResult o σ κ [i] s = ⟨0, 0, 0, 0⟩ := by
  have hempty : (keysOfList [i]).toFinset \ s.toFinset = ∅ := by
    ext k
    simp only [keysOfList, List.map_cons, List.map_nil, List.toFinset_cons,
      List.toFinset_nil, insert_emptyc_eq, Finset.mem_sdiff,
      Finset.mem_singleton, List.mem_toFinset, Finset.not_mem_empty,
      iff_false, not_and, not_not]
    rintro rfl
    exact h
  simp [canonicalResult, hempty]

lemma canonicalResult_single_notMem (o : ResolvedOptions) (σ : InodeKey → Nat)
    (κ : InodeKey → EntryKind) (rootPath : String) (i : FileSystemItem)
    (s : List InodeKey) (h : keyOfItem i ∉ s)
    (hsz : i.stat.size = σ (keyOfItem i))
    (hkd : i.stat.kind = κ (keyOfItem i))
    (hpath : i.path ≠ rootPath) :
    canonicalResult o σ κ [i] s = contribution o rootPath i := by
  have hset : (keysOfList [i]).toFinset \ s.toFinset = {keyOfItem i} := by
    ext k
    simp only [keysOfList, List.map_cons, List.map_nil, List.toFinset_cons,
      List.toFinset_nil, insert_emptyc_eq, Finset.mem_sdiff,
      Finset.mem_singleton, List.mem_toFinset]
    constructor
    · rintro ⟨rfl, -⟩; rfl
    · rintro rfl; exact ⟨rfl, by simpa using h⟩
  unfold canonicalResult contribution wOf
  rw [hset, hsz, hkd]
  simp only [Finset.sum_singleton, Finset.filter_singleton]
  split_ifs <;> simp_all

lemma canonicalResult_append (o : ResolvedOptions) (σ : InodeKey → Nat)
    (κ : InodeKey → EntryKind) (E1 E2 : List FileSystemItem)
    (s s1 : List InodeKey)
    (hs1 : s1.toFinset = s.toFinset ∪ (keysOfList E1).toFinset) :
    canonicalResult o σ κ (E1 ++ E2) s =
      addResult (canonicalResult o σ κ E1 s) (canonicalResult o σ κ E2 s1) := by
  have hkeys : (keysOfList (E1 ++ E2)).toFinset =
      (keysOfList E1).toFinset ∪ (keysOfList E2).toFinset := by
    simp [keysOfList]
  have hd := union_sdiff_disjoint (keysOfList E1).toFinset
    (keysOfList E2).toFinset s.toFinset
  unfold canonicalResult addResult
  rw [hkeys, hs1, union_sdiff_decomp]
  simp only [FolderSizeResult.mk.injEq]
  refine ⟨Finset.sum_union hd, ?_, ?_, ?_⟩ <;>
    rw [Finset.filter_union,
      Finset.card_union_of_disjoint (Finset.disjoint_filter_filter hd)]

/-- The bespoke split matching post-order visiting: the parent directory's
key is recorded *before* its children are traversed, while the parent's
`nodeCallback` fires after theirs. -/
lemma canonicalResult_forest_item (o : ResolvedOptions) (σ : InodeKey → Nat)
    (κ : InodeKey → EntryKind) (rootPath : String)
    (EF : List FileSystemItem) (i : FileSystemItem) (s : List InodeKey)
    (hk1 : keyOfItem i ∉ keysOfList EF) (hk2 : keyOfItem i ∉ s)
    (hsz : i.stat.size = σ (keyOfItem i))
    (hkd : i.stat.kind = κ (keyOfItem i))
    (hpath : i.path ≠ rootPath) :
    canonicalResult o σ κ (EF ++ [i]) s =
      addResult (canonicalResult o σ κ EF (keyOfItem i :: s))
        (contribution o rootPath i) := by
  rw [← canonicalResult_single_notMem o σ κ rootPath i s hk2 hsz hkd hpath]
  have hset : (keysOfList (EF ++ [i])).toFinset \ s.toFinset =
      ((keysOfList EF).toFinset \ (keyOfItem i :: s).toFinset) ∪
        ((keysOfList [i]).toFinset \ s.toFinset) := by
    ext k
    simp only [keysOfList, List.map_append, List.toFinset_append,
      List.map_cons, List.map_nil, List.toFinset_cons, List.toFinset_nil,
      insert_emptyc_eq, Finset.mem_sdiff, Finset.mem_union,
      Finset.mem_singleton, List.mem_toFinset, Finset.mem_insert]
    constructor
    · rintro ⟨hmem | rfl, hns⟩
      · refine Or.inl ⟨hmem, fun hc => ?_⟩
        rcases hc with rfl | hc
        · exact hk1 hmem
        · exact hns hc
      · exact Or.inr ⟨rfl, hns⟩
    · rintro (⟨hmem, hni⟩ | ⟨rfl, hns⟩)
      · exact ⟨Or.inl hmem, fun hc => hni (Or.inr hc)⟩
      · exact ⟨Or.inr rfl, hns⟩
  have hd : Disjoint ((keysOfList EF).toFinset \ (keyOfItem i :: s).toFinset)
      ((keysOfList [i]).toFinset \ s.toFinset) := by
    rw [Finset.disjoint_left]
    intro k hka hkb
    simp only [keysOfList, List.map_cons, List.map_nil, List.toFinset_cons,
      List.toFinset_nil, insert_emptyc_eq, Finset.mem_sdiff,
      Finset.mem_singleton, List.mem_toFinset, Finset.mem_insert] at hka hkb
    rcases hkb with ⟨rfl, -⟩
    exact hka.2 (Or.inl rfl)
  unfold canonicalResult addResult
  rw [hset]
  simp only [FolderSizeResult.mk.injEq]
  refine ⟨Finset.sum_union hd, ?_, ?_, ?_⟩ <;>
    rw [Finset.filter_union,
      Finset.card_union_of_disjoint (Finset.disjoint_filter_filter hd)]

lemma vflatten_node (item : FileSystemItem) (cs : List VisitTree) :
    vflatten (.node item cs) = vflattenList cs ++ [item] := rfl

lemma vflattenList_nil : vflattenList [] = [] := rfl

lemma vflattenList_cons (t : VisitTree) (ts : List VisitTree) :
    vflattenList (t :: ts) = vflatten t ++ vflattenList ts := rfl

lemma sizeOf_mem_entries {c : FSNode} {entries : List FSNode}
    (h : c ∈ entries) (nm : String) (st : Option Stat) :
    sizeOf c < sizeOf (FSNode.mk nm st (some entries)) := by
  have h1 : sizeOf c < sizeOf entries := List.sizeOf_lt_of_mem h
  have h2 : sizeOf (FSNode.mk nm st (some entries)) =
      1 + sizeOf nm + sizeOf st + (1 + sizeOf entries) := by
    simp [FSNode.mk.sizeOf_spec]
  omega

/-- With `inodeCheck = false` and a swallowing error policy, the children
mapper returns the inode set untouched and visits precisely the candidate
entries. -/
lemma traverseChildren_noDedup (o : ResolvedOptions) (cap : Nat)
    (hsw : errorsSwallowed o) (F : List FSNode)
    (htree : ∀ c ∈ F, ∀ (p' : String) (d' : Nat) (s' : List InodeKey),
      ∃ res, traverseItem o cap c p' d' s' = (s', .ok res) ∧
        vflattenOpt res = entriesTree o cap c p' d') :
    ∀ (pp : String) (d : Nat) (seen : List InodeKey),
      ∃ ts, traverseChildren o cap F pp d seen = (seen, ts) ∧
        vflattenList ts = entriesForest o cap F pp d := by
  induction F with
  | nil =>
    intro pp d seen
    exact ⟨[], traverseChildren_nil o cap pp d seen, rfl⟩
  | cons c rest ih =>
    intro pp d seen
    obtain ⟨res, heq, hflat⟩ :=
      htree c (List.mem_cons_self c rest) (joinPath pp c.name) (d + 1) seen
    obtain ⟨ts', hrest, hfrest⟩ :=
      ih (fun c' hc' => htree c' (List.mem_cons_of_mem c hc')) pp d seen
    rw [traverseChildren_cons]
    simp only [heq]
    cases res with
    | none =>
      refine ⟨ts', by simp only [hrest], ?_⟩
      rw [entriesForest_cons, ← hflat, hfrest]
      simp [vflattenOpt]
    | some t =>
      refine ⟨t :: ts', by simp only [hrest], ?_⟩
      rw [entriesForest_cons, ← hfrest, vflattenList_cons]
      have : vflatten t = entriesTree o cap c (joinPath pp c.name) (d + 1) := by
        simpa [vflattenOpt] using hflat
      rw [this, hfrest]

/-- With `inodeCheck = false` and a swallowing error policy, a traversal
never rejects, never touches the inode set, and visits exactly the candidate
entries. -/
lemma traverseItem_noDedup (o : ResolvedOptions) (cap : Nat)
    (hic : o.inodeCheck = false) (hsw : errorsSwallowed o) :
    ∀ (fsn : FSNode) (itemPath : String) (depth : Nat) (seen : List InodeKey),
      ∃ res, traverseItem o cap fsn itemPath depth seen = (seen, .ok res) ∧
        vflattenOpt res = entriesTree o cap fsn itemPath depth := by
  suffices h : ∀ (n : Nat) (fsn : FSNode), sizeOf fsn ≤ n →
      ∀ (itemPath : String) (depth : Nat) (seen : List InodeKey),
      ∃ res, traverseItem o cap fsn itemPath depth seen = (seen, .ok res) ∧
        vflattenOpt res = entriesTree o cap fsn itemPath depth by
    exact fun fsn => h (sizeOf fsn) fsn le_rfl
  intro n
  induction n using Nat.strong_induction_on with
  | _ n ihn =>
    rintro ⟨nm, st, li⟩ hsz itemPath depth seen
    have hnotdup : ∀ s : Stat,
        (if o.inodeCheck then checkInode seen s else (false, seen)) =
          (false, seen) := by
      intro s; rw [if_neg (by simp [hic])]
    by_cases hd : depth > cap
    · cases st <;> cases li <;>
        refine ⟨none, ?_, ?_⟩ <;>
        simp [traverseItem_eq_statNone, traverseItem_eq_listNone,
          traverseItem_eq_listSome, entriesTree_eq_statNone,
          entriesTree_eq_listNone, entriesTree_eq_listSome, hd, vflattenOpt]
    · by_cases hig : shouldIgnorePath o.ignores itemPath o.includeHidden = true
      · cases st <;> cases li <;>
          refine ⟨none, ?_, ?_⟩ <;>
          simp [traverseItem_eq_statNone, traverseItem_eq_listNone,
            traverseItem_eq_listSome, entriesTree_eq_statNone,
            entriesTree_eq_listNone, entriesTree_eq_listSome, hd, hig,
            vflattenOpt]
      · cases st with
        | none =>
          refine ⟨none, ?_, ?_⟩ <;>
            simp [traverseItem_eq_statNone, entriesTree_eq_statNone, hd, hig,
              hsw itemPath, vflattenOpt]
        | some s =>
          by_cases hk : s.kind = EntryKind.directory
          · cases li with
            | none =>
              refine ⟨some (.node ⟨itemPath, basename itemPath, s, depth⟩ []),
                ?_, ?_⟩
              · rw [traverseItem_eq_listNone, if_neg hd, if_neg hig,
                  hnotdup s]
                simp [hsw itemPath, hk]
              · rw [entriesTree_eq_listNone, if_neg hd, if_neg hig]
                simp [vflattenOpt, vflatten_node, vflattenList_nil]
            | some entries =>
              have htree : ∀ c ∈ entries, ∀ (p' : String) (d' : Nat)
                  (s' : List InodeKey),
                  ∃ res, traverseItem o cap c p' d' s' = (s', .ok res) ∧
                    vflattenOpt res = entriesTree o cap c p' d' := by
                intro c hc p' d' s'
                exact ihn (sizeOf c)
                  (lt_of_lt_of_le (sizeOf_mem_entries hc nm (some s)) hsz)
                  c le_rfl p' d' s'
              obtain ⟨ts, hts, hfl⟩ :=
                traverseChildren_noDedup o cap hsw entries htree itemPath
                  depth seen
              refine ⟨some (.node ⟨itemPath, basename itemPath, s, depth⟩ ts),
                ?_, ?_⟩
              · rw [traverseItem_eq_listSome, if_neg hd, if_neg hig,
                  hnotdup s]
                simp [hk, hts]
              · rw [entriesTree_eq_listSome, if_neg hd, if_neg hig, if_pos hk]
                simp [vflattenOpt, vflatten_node, hfl]
          · cases li with
            | none =>
              refine ⟨some (.node ⟨itemPath, basename itemPath, s, depth⟩ []),
                ?_, ?_⟩
              · rw [traverseItem_eq_listNone, if_neg hd, if_neg hig,
                  hnotdup s]
                simp [hk]
              · rw [entriesTree_eq_listNone, if_neg hd, if_neg hig]
                simp [vflattenOpt, vflatten_node, vflattenList_nil]
            | some entries =>
              refine ⟨some (.node ⟨itemPath, basename itemPath, s, depth⟩ []),
                ?_, ?_⟩
              · rw [traverseItem_eq_listSome, if_neg hd, if_neg hig,
                  hnotdup s]
                simp [hk]
              · rw [entriesTree_eq_listSome, if_neg hd, if_neg hig, if_neg hk]
                simp [vflattenOpt, vflatten_node, vflattenList_nil]

lemma aggregate_nil (o : ResolvedOptions) (rootPath : String) :
    aggregate o rootPath [] = ⟨0, 0, 0, 0⟩ := rfl

lemma addResult_zero_left (x : FolderSizeResult) :
    addResult ⟨0, 0, 0, 0⟩ x = x := by
  cases x; simp [addResult]

/-- Forest step of the dedup canonicalisation: with `inodeCheck = true`, a
swallowing error policy, per-key-consistent stats and unduplicated directory
keys, the children mapper extends the inode set by exactly the candidate
keys and accumulates the canonical key-set aggregate. -/
lemma traverseChildren_dedup (o : ResolvedOptions) (cap : Nat)
    (σ : InodeKey → Nat) (κ : InodeKey → EntryKind) (rootPath : String)
    (F : List FSNode)
    (htree : ∀ c ∈ F, ∀ (p' : String) (d' : Nat) (s' : List InodeKey),
      agrees σ κ (entriesTree o cap c p' d') →
      dirKeysUnique κ (entriesTree o cap c p' d') s' →
      offRoot rootPath (entriesTree o cap c p' d') →
      ∃ res s2, traverseItem o cap c p' d' s' = (s2, .ok res) ∧
        s2.toFinset = s'.toFinset ∪
          (keysOfList (entriesTree o cap c p' d')).toFinset ∧
        aggregate o rootPath (vflattenOpt res) =
          canonicalResult o σ κ (entriesTree o cap c p' d') s') :
    ∀ (pp : String) (d : Nat) (seen : List InodeKey),
      agrees σ κ (entriesForest o cap F pp d) →
      dirKeysUnique κ (entriesForest o cap F pp d) seen →
      offRoot rootPath (entriesForest o cap F pp d) →
      ∃ ts s2, traverseChildren o cap F pp d seen = (s2, ts) ∧
        s2.toFinset = seen.toFinset ∪
          (keysOfList (entriesForest o cap F pp d)).toFinset ∧
        aggregate o rootPath (vflattenList ts) =
          canonicalResult o σ κ (entriesForest o cap F pp d) seen := by
  induction F with
  | nil =>
    intro pp d seen _ _ _
    refine ⟨[], seen, traverseChildren_nil o cap pp d seen, ?_, ?_⟩
    · simp [entriesForest_nil, keysOfList]
    · rw [entriesForest_nil, canonicalResult_nil]
      rfl
  | cons c rest ih =>
    intro pp d seen hag hdir hroot
    have hmemc : ∀ i ∈ entriesTree o cap c (joinPath pp c.name) (d + 1),
        i ∈ entriesForest o cap (c :: rest) pp d := by
      intro i hi
      rw [entriesForest_cons]
      exact List.mem_append_left _ hi
    have hmemr : ∀ i ∈ entriesForest o cap rest pp d,
        i ∈ entriesForest o cap (c :: rest) pp d := by
      intro i hi
      rw [entriesForest_cons]
      exact List.mem_append_right _ hi
    have hagc : agrees σ κ (entriesTree o cap c (joinPath pp c.name) (d + 1)) :=
      fun i hi => hag i (hmemc i hi)
    have hagr : agrees σ κ (entriesForest o cap rest pp d) :=
      fun i hi => hag i (hmemr i hi)
    have hcount : ∀ k : InodeKey,
        (keysOfList (entriesForest o cap (c :: rest) pp d)).count k =
          (keysOfList (entriesTree o cap c (joinPath pp c.name)
            (d + 1))).count k +
          (keysOfList (entriesForest o cap rest pp d)).count k := by
      intro k
      rw [entriesForest_cons]
      simp [keysOfList, List.count_append]
    have hdirc : dirKeysUnique κ
        (entriesTree o cap c (joinPath pp c.name) (d + 1)) seen := by
      intro k hk
      have := hdir k hk
      rw [hcount k] at this
      omega
    obtain ⟨res, s2, heq, hs2, hagg⟩ :=
      htree c (List.mem_cons_self c rest) (joinPath pp c.name) (d + 1) seen
        hagc hdirc (fun i hi => hroot i (hmemc i hi))
    have hdirr : dirKeysUnique κ (entriesForest o cap rest pp d) s2 := by
      intro k hk
      have htot := hdir k hk
      rw [hcount k] at htot
      by_cases hmem : k ∈ s2
      · have hmem' : k ∈ seen ∨
            k ∈ keysOfList (entriesTree o cap c (joinPath pp c.name)
              (d + 1)) := by
          have : k ∈ s2.toFinset := List.mem_toFinset.mpr hmem
          rw [hs2] at this
          rcases Finset.mem_union.mp this with h | h
          · exact Or.inl (List.mem_toFinset.mp h)
          · exact Or.inr (List.mem_toFinset.mp h)
        rcases hmem' with h | h
        · simp only [h, if_pos] at htot
          simp [hmem]
          omega
        · have := List.count_pos_iff_mem.mpr h
          simp [hmem]
          omega
      · simp [hmem]
        omega
    obtain ⟨ts', s3, hr, hs3, hagg'⟩ := ih
      (fun c' hc' => htree c' (List.mem_cons_of_mem c hc')) pp d s2 hagr hdirr
      (fun i hi => hroot i (hmemr i hi))
    have hkeysE : (keysOfList (entriesForest o cap (c :: rest) pp d)).toFinset
        = (keysOfList (entriesTree o cap c (joinPath pp c.name)
            (d + 1))).toFinset ∪
          (keysOfList (entriesForest o cap rest pp d)).toFinset := by
      rw [entriesForest_cons]
      simp [keysOfList]
    have hs3' : s3.toFinset = seen.toFinset ∪
        (keysOfList (entriesForest o cap (c :: rest) pp d)).toFinset := by
      rw [hs3, hs2, hkeysE, Finset.union_assoc]
    have hcanon : canonicalResult o σ κ
        (entriesForest o cap (c :: rest) pp d) seen =
        addResult
          (canonicalResult o σ κ
            (entriesTree o cap c (joinPath pp c.name) (d + 1)) seen)
          (canonicalResult o σ κ (entriesForest o cap rest pp d) s2) := by
    -- E = E_c ++ E_rest and s2 covers exactly seen ∪ keys E_c
      rw [entriesForest_cons]
      exact canonicalResult_append o σ κ _ _ seen s2 hs2
    cases res with
    | none =>
      refine ⟨ts', s3, ?_, hs3', ?_⟩
      · rw [traverseChildren_cons]
        simp only [heq, hr]
      · rw [hcanon, ← hagg, ← hagg']
        simp [vflattenOpt, aggregate_nil, addResult_zero_left]
    | some t =>
      refine ⟨t :: ts', s3, ?_, hs3', ?_⟩
      · rw [traverseChildren_cons]
        simp only [heq, hr]
      · rw [vflattenList_cons, aggregate_append, hcanon, ← hagg', ← hagg]
        rfl

/-- Tree step of the dedup canonicalisation. -/
lemma traverseItem_dedup (o : ResolvedOptions) (cap : Nat)
    (σ : InodeKey → Nat) (κ : InodeKey → EntryKind) (rootPath : String)
    (hic : o.inodeCheck = true) (hsw : errorsSwallowed o) :
    ∀ (fsn : FSNode) (itemPath : String) (depth : Nat) (seen : List InodeKey),
      agrees σ κ (entriesTree o cap fsn itemPath depth) →
      dirKeysUnique κ (entriesTree o cap fsn itemPath depth) seen →
      offRoot rootPath (entriesTree o cap fsn itemPath depth) →
      ∃ res s2, traverseItem o cap fsn itemPath depth seen = (s2, .ok res) ∧
        s2.toFinset = seen.toFinset ∪
          (keysOfList (entriesTree o cap fsn itemPath depth)).toFinset ∧
        aggregate o rootPath (vflattenOpt res) =
          canonicalResult o σ κ (entriesTree o cap fsn itemPath depth) seen := by
  suffices h : ∀ (n : Nat) (fsn : FSNode), sizeOf fsn ≤ n →
      ∀ (itemPath : String) (depth : Nat) (seen : List InodeKey),
      agrees σ κ (entriesTree o cap fsn itemPath depth) →
      dirKeysUnique κ (entriesTree o cap fsn itemPath depth) seen →
      offRoot rootPath (entriesTree o cap fsn itemPath depth) →
      ∃ res s2, traverseItem o cap fsn itemPath depth seen = (s2, .ok res) ∧
        s2.toFinset = seen.toFinset ∪
          (keysOfList (entriesTree o cap fsn itemPath depth)).toFinset ∧
        aggregate o rootPath (vflattenOpt res) =
          canonicalResult o σ κ (entriesTree o cap fsn itemPath depth) seen by
    exact fun fsn => h (sizeOf fsn) fsn le_rfl
  intro n
  induction n using Nat.strong_induction_on with
  | _ n ihn =>
    rintro ⟨nm, st, li⟩ hsz itemPath depth seen hag hdir hroot
    by_cases hd : depth > cap
    · refine ⟨none, seen, ?_, ?_, ?_⟩
      · cases st <;> cases li <;>
          simp [traverseItem_eq_statNone, traverseItem_eq_listNone,
            traverseItem_eq_listSome, hd]
      · cases st <;> cases li <;>
          simp [entriesTree_eq_statNone, entriesTree_eq_listNone,
            entriesTree_eq_listSome, hd, keysOfList]
      · cases st <;> cases li <;>
          simp [entriesTree_eq_statNone, entriesTree_eq_listNone,
            entriesTree_eq_listSome, hd, vflattenOpt, aggregate_nil,
            canonicalResult_nil]
    · by_cases hig : shouldIgnorePath o.ignores itemPath o.includeHidden = true
      · refine ⟨none, seen, ?_, ?_, ?_⟩
        · cases st <;> cases li <;>
            simp [traverseItem_eq_statNone, traverseItem_eq_listNone,
              traverseItem_eq_listSome, hd, hig]
        · cases st <;> cases li <;>
            simp [entriesTree_eq_statNone, entriesTree_eq_listNone,
              entriesTree_eq_listSome, hd, hig, keysOfList]
        · cases st <;> cases li <;>
            simp [entriesTree_eq_statNone, entriesTree_eq_listNone,
              entriesTree_eq_listSome, hd, hig, vflattenOpt, aggregate_nil,
              canonicalResult_nil]
      · cases st with
        | none =>
          refine ⟨none, seen, ?_, ?_, ?_⟩
          · simp [traverseItem_eq_statNone, hd, hig, hsw itemPath]
          · simp [entriesTree_eq_statNone, hd, hig, keysOfList]
          · simp [entriesTree_eq_statNone, hd, hig, vflattenOpt,
              aggregate_nil, canonicalResult_nil]
        | some s =>
          have hchk : (if o.inodeCheck then checkInode seen s
              else (false, seen)) = checkInode seen s := by
            rw [if_pos hic]
          by_cases hmem : getInodeKey s ∈ seen
          · -- key already recorded: the entry is skipped
            have hcheq : checkInode seen s = (true, seen) := by
              simp [checkInode, hmem]
            by_cases hk : s.kind = EntryKind.directory
            · -- impossible: a visited directory key cannot be in `seen`
              exfalso
              have hitem : (⟨itemPath, basename itemPath, s, depth⟩ :
                  FileSystemItem) ∈ entriesTree o cap (.mk nm (some s) li)
                    itemPath depth := by
                cases li with
                | none =>
                  rw [entriesTree_eq_listNone, if_neg hd, if_neg hig]
                  exact List.mem_singleton.mpr rfl
                | some entries =>
                  rw [entriesTree_eq_listSome, if_neg hd, if_neg hig,
                    if_pos hk]
                  exact List.mem_append_right _ (List.mem_singleton.mpr rfl)
              have hκ : κ (getInodeKey s) = EntryKind.directory := by
                have := (hag _ hitem).2
                simp only [keyOfItem, getInodeKey] at this ⊢
                rw [← this]
                exact hk
              have hcnt := hdir (getInodeKey s) hκ
              have hpos : 0 < (keysOfList (entriesTree o cap
                  (.mk nm (some s) li) itemPath depth)).count
                    (getInodeKey s) := by
                apply List.count_pos_iff_mem.mpr
                exact List.mem_map.mpr ⟨_, hitem, rfl⟩
              simp only [hmem, if_pos] at hcnt
              omega
            · -- non-directory duplicate: skipped, nothing counted
              have hE : entriesTree o cap (.mk nm (some s) li) itemPath depth
                  = [⟨itemPath, basename itemPath, s, depth⟩] := by
                cases li with
                | none =>
                  rw [entriesTree_eq_listNone, if_neg hd, if_neg hig]
                | some entries =>
                  rw [entriesTree_eq_listSome, if_neg hd, if_neg hig,
                    if_neg hk]
              refine ⟨none, seen, ?_, ?_, ?_⟩
              · cases li with
                | none =>
                  rw [traverseItem_eq_listNone, if_neg hd, if_neg hig, hchk,
                    hcheq]
                  simp
                | some entries =>
                  rw [traverseItem_eq_listSome, if_neg hd, if_neg hig, hchk,
                    hcheq]
                  simp
              · rw [hE]
                ext k
                simp only [keysOfList, List.map_cons, List.map_nil,
                  List.toFinset_cons, List.toFinset_nil, insert_emptyc_eq,
                  Finset.mem_union, Finset.mem_singleton, List.mem_toFinset,
                  keyOfItem]
                constructor
                · exact Or.inl
                · rintro (h | rfl)
                  · exact h
                  · exact hmem
              · rw [hE, canonicalResult_single_mem o σ κ
                  (⟨itemPath, basename itemPath, s, depth⟩ : FileSystemItem)
                  seen hmem]
                rfl
          · -- fresh key: recorded, entry visited
            have hcheq : checkInode seen s = (false, getInodeKey s :: seen) :=
              by simp [checkInode, hmem]
            have hitem_mem : ∀ (E0 : List FileSystemItem),
                entriesTree o cap (.mk nm (some s) li) itemPath depth =
                  E0 ++ [⟨itemPath, basename itemPath, s, depth⟩] →
                (⟨itemPath, basename itemPath, s, depth⟩ :
                  FileSystemItem) ∈ entriesTree o cap (.mk nm (some s) li)
                    itemPath depth := by
              intro E0 hE0
              rw [hE0]
              exact List.mem_append_right _ (List.mem_singleton.mpr rfl)
            by_cases hk : s.kind = EntryKind.directory
            · cases li with
              | none =>
                have hE : entriesTree o cap (.mk nm (some s) none)
                    itemPath depth = [⟨itemPath, basename itemPath, s,
                      depth⟩] := by
                  rw [entriesTree_eq_listNone, if_neg hd, if_neg hig]
                have hin : (⟨itemPath, basename itemPath, s, depth⟩ :
                    FileSystemItem) ∈ entriesTree o cap
                      (.mk nm (some s) none) itemPath depth := by
                  rw [hE]
                  exact List.mem_singleton.mpr rfl
                refine ⟨some (.node ⟨itemPath, basename itemPath, s, depth⟩
                  []), getInodeKey s :: seen, ?_, ?_, ?_⟩
                · rw [traverseItem_eq_listNone, if_neg hd, if_neg hig, hchk,
                    hcheq]
                  simp [hk, hsw itemPath]
                · rw [hE]
                  simp [keysOfList, keyOfItem, Finset.insert_eq, Finset.union_comm]
                · rw [hE, canonicalResult_single_notMem o σ κ rootPath
                    (⟨itemPath, basename itemPath, s, depth⟩ :
                      FileSystemItem) seen hmem
                    (hag _ hin).1 (hag _ hin).2 (hroot _ hin)]
                  simp [vflattenOpt, vflatten_node, vflattenList_nil,
                    aggregate_single]
              | some entries =>
                have hE : entriesTree o cap (.mk nm (some s) (some entries))
                    itemPath depth =
                    entriesForest o cap entries itemPath depth ++
                      [⟨itemPath, basename itemPath, s, depth⟩] := by
                  rw [entriesTree_eq_listSome, if_neg hd, if_neg hig,
                    if_pos hk]
                have hitem : (⟨itemPath, basename itemPath, s, depth⟩ :
                    FileSystemItem) ∈ entriesTree o cap
                      (.mk nm (some s) (some entries)) itemPath depth :=
                  hitem_mem _ hE
                have hκ : κ (getInodeKey s) = EntryKind.directory := by
                  have := (hag _ hitem).2
                  simp only [keyOfItem] at this
                  rw [← this]; exact hk
                have hcnt := hdir (getInodeKey s) hκ
                have hcntE : (keysOfList (entriesTree o cap
                    (.mk nm (some s) (some entries)) itemPath depth)).count
                      (getInodeKey s) =
                    (keysOfList (entriesForest o cap entries itemPath
                      depth)).count (getInodeKey s) + 1 := by
                  rw [hE]
                  simp [keysOfList, List.count_append, keyOfItem,
                    List.count_singleton]
                have hknotEF : getInodeKey s ∉
                    keysOfList (entriesForest o cap entries itemPath depth) :=
                  by
                  intro hcon
                  have := List.count_pos_iff_mem.mpr hcon
                  simp only [hmem, if_neg, if_false] at hcnt
                  omega
                -- children hypotheses relative to the extended seen-set
                have hmemf : ∀ i ∈ entriesForest o cap entries itemPath depth,
                    i ∈ entriesTree o cap (.mk nm (some s) (some entries))
                      itemPath depth := by
                  intro i hi
                  rw [hE]
                  exact List.mem_append_left _ hi
                have hagf : agrees σ κ (entriesForest o cap entries itemPath
                    depth) := fun i hi => hag i (hmemf i hi)
                have hdirf : dirKeysUnique κ
                    (entriesForest o cap entries itemPath depth)
                    (getInodeKey s :: seen) := by
                  intro k hkd
                  have htot := hdir k hkd
                  have hsplit : (keysOfList (entriesTree o cap
                      (.mk nm (some s) (some entries)) itemPath
                        depth)).count k =
                      (keysOfList (entriesForest o cap entries itemPath
                        depth)).count k +
                        (if getInodeKey s = k then 1 else 0) := by
                    rw [hE]
                    simp [keysOfList, List.count_append, keyOfItem,
                      List.count_singleton]
                  rw [hsplit] at htot
                  by_cases hkk : k = getInodeKey s
                  · subst hkk
                    have hzero : (keysOfList (entriesForest o cap entries
                        itemPath depth)).count (getInodeKey s) = 0 :=
                      List.count_eq_zero.mpr hknotEF
                    simp [hzero, List.mem_cons]
                  · have : (k ∈ getInodeKey s :: seen) ↔ k ∈ seen := by
                      simp [List.mem_cons, hkk]
                    by_cases hks : k ∈ seen <;> simp [hkk, hks, this] at htot ⊢
                      <;> omega
                have hrootf : offRoot rootPath
                    (entriesForest o cap entries itemPath depth) :=
                  fun i hi => hroot i (hmemf i hi)
                have htree : ∀ c ∈ entries, ∀ (p' : String) (d' : Nat)
                    (s' : List InodeKey),
                    agrees σ κ (entriesTree o cap c p' d') →
                    dirKeysUnique κ (entriesTree o cap c p' d') s' →
                    offRoot rootPath (entriesTree o cap c p' d') →
                    ∃ res s2, traverseItem o cap c p' d' s' = (s2, .ok res) ∧
                      s2.toFinset = s'.toFinset ∪
                        (keysOfList (entriesTree o cap c p' d')).toFinset ∧
                      aggregate o rootPath (vflattenOpt res) =
                        canonicalResult o σ κ (entriesTree o cap c p' d') s' :=
                  fun c hc p' d' s' => ihn (sizeOf c)
                    (lt_of_lt_of_le (sizeOf_mem_entries hc nm (some s)) hsz) c
                    le_rfl p' d' s'
                obtain ⟨ts, s2, hch, hs2, hagg⟩ :=
                  traverseChildren_dedup o cap σ κ rootPath entries htree
                    itemPath depth (getInodeKey s :: seen) hagf hdirf hrootf
                refine ⟨some (.node ⟨itemPath, basename itemPath, s, depth⟩
                  ts), s2, ?_, ?_, ?_⟩
                · rw [traverseItem_eq_listSome, if_neg hd, if_neg hig, hchk,
                    hcheq]
                  simp [hk, hch]
                · rw [hs2, hE]
                  ext k
                  simp only [keysOfList, List.map_append, List.map_cons,
                    List.map_nil, List.toFinset_append, List.toFinset_cons,
                    List.toFinset_nil, insert_emptyc_eq, Finset.mem_union,
                    Finset.mem_insert, List.mem_toFinset, Finset.mem_singleton,
                    keyOfItem]
                  tauto
                · rw [hE, vflattenOpt, vflatten_node, aggregate_append,
                    aggregate_single,
                    canonicalResult_forest_item o σ κ rootPath
                      (entriesForest o cap entries itemPath depth)
                      (⟨itemPath, basename itemPath, s, depth⟩ :
                        FileSystemItem) seen hknotEF hmem
                      (hag _ hitem).1 (hag _ hitem).2 (hroot _ hitem), hagg]
                  rfl
            · -- fresh non-directory entry
              have hE : entriesTree o cap (.mk nm (some s) li) itemPath depth
                  = [⟨itemPath, basename itemPath, s, depth⟩] := by
                cases li with
                | none =>
                  rw [entriesTree_eq_listNone, if_neg hd, if_neg hig]
                | some entries =>
                  rw [entriesTree_eq_listSome, if_neg hd, if_neg hig,
                    if_neg hk]
              have hin : (⟨itemPath, basename itemPath, s, depth⟩ :
                  FileSystemItem) ∈ entriesTree o cap (.mk nm (some s) li)
                    itemPath depth := by
                rw [hE]; exact List.mem_singleton.mpr rfl
              refine ⟨some (.node ⟨itemPath, basename itemPath, s, depth⟩ []),
                getInodeKey s :: seen, ?_, ?_, ?_⟩
              · cases li with
                | none =>
                  rw [traverseItem_eq_listNone, if_neg hd, if_neg hig, hchk,
                    hcheq]
                  simp [hk]
                | some entries =>
                  rw [traverseItem_eq_listSome, if_neg hd, if_neg hig, hchk,
                    hcheq]
                  simp [hk]
              · rw [hE]
                simp [keysOfList, keyOfItem, Finset.insert_eq, Finset.union_comm]
              · rw [hE, canonicalResult_single_notMem o σ κ rootPath
                  (⟨itemPath, basename itemPath, s, depth⟩ : FileSystemItem)
                  seen hmem (hag _ hin).1 (hag _ hin).2 (hroot _ hin)]
                simp [vflattenOpt, vflatten_node, vflattenList_nil,
                  aggregate_single]

/-- The aggregate of one traversal run with an explicit depth bound;
`size` is exactly this at `cap = options.maxDepth`. -/
def sizeAtCap (o : ResolvedOptions) (cap : Nat) (root : FSNode)
    (rootPath : String) : Except TraverseError FolderSizeResult :=
  match traverseItem o cap root rootPath 0 [] with
  | (_, .error e) => .error e
  | (_, .ok none) => .ok ⟨0, 0, 0, 0⟩
  | (_, .ok (some t)) => .ok (aggregate o rootPath (vflatten t))

lemma size_eq_sizeAtCap (o : ResolvedOptions) (root : FSNode)
    (rootPath : String) :
    size o root rootPath = sizeAtCap o o.maxDepth root rootPath := rfl

lemma traverseChildren_depth_le (o : ResolvedOptions) (cap : Nat)
    (F : List FSNode)
    (htree : ∀ c ∈ F, ∀ (p' : String) (d' : Nat) (s' s2 : List InodeKey)
      (t : VisitTree), traverseItem o cap c p' d' s' = (s2, .ok (some t)) →
      ∀ i ∈ vflatten t, i.depth ≤ cap) :
    ∀ (pp : String) (d : Nat) (seen : List InodeKey),
      ∀ i ∈ vflattenList (traverseChildren o cap F pp d seen).2,
        i.depth ≤ cap := by
  induction F with
  | nil =>
    intro pp d seen i hi
    simp [traverseChildren_nil, vflattenList_nil] at hi
  | cons c rest ih =>
    intro pp d seen i hi
    rw [traverseChildren_cons] at hi
    rcases hr : traverseItem o cap c (joinPath pp c.name) (d + 1) seen with
      ⟨s1, res⟩
    rw [hr] at hi
    match res with
    | .error e =>
      exact ih (fun c' hc' => htree c' (List.mem_cons_of_mem c hc')) pp d s1
        i hi
    | .ok none =>
      exact ih (fun c' hc' => htree c' (List.mem_cons_of_mem c hc')) pp d s1
        i hi
    | .ok (some t) =>
      simp only [vflattenList_cons, List.mem_append] at hi
      rcases hi with hi | hi
      · exact htree c (List.mem_cons_self c rest) _ _ _ _ _ hr i hi
      · exact ih (fun c' hc' => htree c' (List.mem_cons_of_mem c hc')) pp d s1
          i hi

/-- No visited entry lies deeper than the depth bound. -/
lemma traverseItem_depth_le (o : ResolvedOptions) (cap : Nat) :
    ∀ (fsn : FSNode) (itemPath : String) (depth : Nat)
      (seen s2 : List InodeKey) (t : VisitTree),
      traverseItem o cap fsn itemPath depth seen = (s2, .ok (some t)) →
      ∀ i ∈ vflatten t, i.depth ≤ cap := by
  suffices h : ∀ (n : Nat) (fsn : FSNode), sizeOf fsn ≤ n →
      ∀ (itemPath : String) (depth : Nat) (seen s2 : List InodeKey)
        (t : VisitTree),
      traverseItem o cap fsn itemPath depth seen = (s2, .ok (some t)) →
      ∀ i ∈ vflatten t, i.depth ≤ cap by
    exact fun fsn => h (sizeOf fsn) fsn le_rfl
  intro n
  induction n using Nat.strong_induction_on with
  | _ n ihn =>
    rintro ⟨nm, st, li⟩ hsz itemPath depth seen s2 t heq i hi
    by_cases hd : depth > cap
    · exfalso
      cases st <;> cases li
      · rw [traverseItem_eq_statNone, if_pos hd] at heq; simp at heq
      · rw [traverseItem_eq_statNone, if_pos hd] at heq; simp at heq
      · rw [traverseItem_eq_listNone, if_pos hd] at heq; simp at heq
      · rw [traverseItem_eq_listSome, if_pos hd] at heq; simp at heq
    · by_cases hig : shouldIgnorePath o.ignores itemPath o.includeHidden = true
      · exfalso
        cases st <;> cases li
        · rw [traverseItem_eq_statNone, if_neg hd, if_pos hig] at heq
          simp at heq
        · rw [traverseItem_eq_statNone, if_neg hd, if_pos hig] at heq
          simp at heq
        · rw [traverseItem_eq_listNone, if_neg hd, if_pos hig] at heq
          simp at heq
        · rw [traverseItem_eq_listSome, if_neg hd, if_pos hig] at heq
          simp at heq
      · cases st with
        | none =>
          exfalso
          rw [traverseItem_eq_statNone, if_neg hd, if_neg hig] at heq
          cases he : handleError o itemPath "无法获取文件信息" <;>
            rw [he] at heq <;> simp at heq
        | some s =>
          by_cases hdup :
              (if o.inodeCheck then checkInode seen s
                else (false, seen)).1 = true
          · exfalso
            cases li with
            | none =>
              rw [traverseItem_eq_listNone, if_neg hd, if_neg hig,
                if_pos hdup] at heq
              simp at heq
            | some entries =>
              rw [traverseItem_eq_listSome, if_neg hd, if_neg hig,
                if_pos hdup] at heq
              simp at heq
          · by_cases hk : s.kind = EntryKind.directory
            · cases li with
              | none =>
                rw [traverseItem_eq_listNone, if_neg hd, if_neg hig,
                  if_neg hdup, if_pos hk] at heq
                cases he : handleError o itemPath "无法读取目录" <;>
                  rw [he] at heq <;> simp at heq
                obtain ⟨-, rfl⟩ := heq
                simp only [vflatten_node, vflattenList_nil,
                  List.nil_append, List.mem_singleton] at hi
                subst hi
                exact Nat.le_of_not_lt hd
              | some entries =>
                rw [traverseItem_eq_listSome, if_neg hd, if_neg hig,
                  if_neg hdup, if_pos hk] at heq
                simp only [Prod.mk.injEq, Except.ok.injEq,
                  Option.some.injEq] at heq
                obtain ⟨-, rfl⟩ := heq
                rw [vflatten_node] at hi
                simp only [List.mem_append, List.mem_singleton] at hi
                rcases hi with hi | rfl
                · have htree : ∀ c ∈ entries, ∀ (p' : String) (d' : Nat)
                      (s' s2' : List InodeKey) (t' : VisitTree),
                      traverseItem o cap c p' d' s' = (s2', .ok (some t')) →
                      ∀ j ∈ vflatten t', j.depth ≤ cap :=
                    fun c hc p' d' s' s2' t' heq' =>
                      ihn (sizeOf c)
                        (lt_of_lt_of_le (sizeOf_mem_entries hc nm (some s))
                          hsz) c le_rfl p' d' s' s2' t' heq'
                  exact traverseChildren_depth_le o cap entries htree
                    itemPath depth _ i hi
                · exact Nat.le_of_not_lt hd
            · cases li with
              | none =>
                rw [traverseItem_eq_listNone, if_neg hd, if_neg hig,
                  if_neg hdup, if_neg hk] at heq
                simp only [Prod.mk.injEq, Except.ok.injEq,
                  Option.some.injEq] at heq
                obtain ⟨-, rfl⟩ := heq
                simp only [vflatten_node, vflattenList_nil,
                  List.nil_append, List.mem_singleton] at hi
                subst hi
                exact Nat.le_of_not_lt hd
              | some entries =>
                rw [traverseItem_eq_listSome, if_neg hd, if_neg hig,
                  if_neg hdup, if_neg hk] at heq
                simp only [Prod.mk.injEq, Except.ok.injEq,
                  Option.some.injEq] at heq
                obtain ⟨-, rfl⟩ := heq
                simp only [vflatten_node, vflattenList_nil,
                  List.nil_append, List.mem_singleton] at hi
                subst hi
                exact Nat.le_of_not_lt hd

lemma entriesForest_sublist_of_tree (o : ResolvedOptions) {cap cap' : Nat}
    (F : List FSNode)
    (htree : ∀ c ∈ F, ∀ (p' : String) (d' : Nat),
      List.Sublist (entriesTree o cap c p' d') (entriesTree o cap' c p' d')) :
    ∀ (pp : String) (d : Nat),
      List.Sublist (entriesForest o cap F pp d) (entriesForest o cap' F pp d) := by
  induction F with
  | nil => intro pp d; rw [entriesForest_nil, entriesForest_nil]
  | cons c rest ih =>
    intro pp d
    rw [entriesForest_cons, entriesForest_cons]
    exact List.Sublist.append
      (htree c (List.mem_cons_self c rest) (joinPath pp c.name) (d + 1))
      (ih (fun c' hc' => htree c' (List.mem_cons_of_mem c hc')) pp d)

/-- A deeper depth bound visits a super-sequence of candidates. -/
lemma entriesTree_sublist (o : ResolvedOptions) {cap cap' : Nat}
    (hcap : cap ≤ cap') :
    ∀ (fsn : FSNode) (itemPath : String) (depth : Nat),
      List.Sublist (entriesTree o cap fsn itemPath depth)
        (entriesTree o cap' fsn itemPath depth) := by
  suffices h : ∀ (n : Nat) (fsn : FSNode), sizeOf fsn ≤ n →
      ∀ (itemPath : String) (depth : Nat),
      List.Sublist (entriesTree o cap fsn itemPath depth)
        (entriesTree o cap' fsn itemPath depth) by
    exact fun fsn => h (sizeOf fsn) fsn le_rfl
  intro n
  induction n using Nat.strong_induction_on with
  | _ n ihn =>
    rintro ⟨nm, st, li⟩ hsz itemPath depth
    by_cases hd : depth > cap
    · have hleft : entriesTree o cap (.mk nm st li) itemPath depth = [] := by
        cases st <;> cases li
        · rw [entriesTree_eq_statNone, if_pos hd]
        · rw [entriesTree_eq_statNone, if_pos hd]
        · rw [entriesTree_eq_listNone, if_pos hd]
        · rw [entriesTree_eq_listSome, if_pos hd]
      rw [hleft]
      exact List.nil_sublist _
    · have hd' : ¬ depth > cap' := by omega
      by_cases hig : shouldIgnorePath o.ignores itemPath o.includeHidden = true
      · cases st <;> cases li <;>
          simp [entriesTree_eq_statNone, entriesTree_eq_listNone,
            entriesTree_eq_listSome, hd, hd', hig] <;>
          exact List.Sublist.refl _
      · cases st with
        | none =>
          simp [entriesTree_eq_statNone, hd, hd', hig]
        | some s =>
          cases li with
          | none =>
            simp [entriesTree_eq_listNone, hd, hd', hig]
          | some entries =>
            rw [entriesTree_eq_listSome, entriesTree_eq_listSome]
            rw [if_neg hd, if_neg hig, if_neg hd', if_neg hig]
            by_cases hk : s.kind = EntryKind.directory
            · rw [if_pos hk, if_pos hk]
              refine List.Sublist.append ?_ (List.Sublist.refl _)
              exact entriesForest_sublist_of_tree o entries
                (fun c hc p' d' => ihn (sizeOf c)
                  (lt_of_lt_of_le (sizeOf_mem_entries hc nm (some s)) hsz) c
                  le_rfl p' d')
                itemPath depth
            · rw [if_neg hk, if_neg hk]

lemma entriesForest_sublist (o : ResolvedOptions) {cap cap' : Nat}
    (hcap : cap ≤ cap') (F : List FSNode) (pp : String) (d : Nat) :
    List.Sublist (entriesForest o cap F pp d) (entriesForest o cap' F pp d) :=
  entriesForest_sublist_of_tree o F
    (fun c _ p' d' => entriesTree_sublist o hcap c p' d') pp d

lemma entriesForest_path_lt_of_tree (o : ResolvedOptions) (cap : Nat)
    (F : List FSNode)
    (htree : ∀ c ∈ F, ∀ (p' : String) (d' : Nat),
      ∀ i ∈ entriesTree o cap c p' d', p'.length ≤ i.path.length) :
    ∀ (pp : String) (d : Nat), ∀ i ∈ entriesForest o cap F pp d,
      pp.length < i.path.length := by
  induction F with
  | nil => intro pp d i hi; rw [entriesForest_nil] at hi; simp at hi
  | cons c rest ih =>
    intro pp d i hi
    rw [entriesForest_cons] at hi
    rcases List.mem_append.mp hi with hi | hi
    · have h1 := htree c (List.mem_cons_self c rest) (joinPath pp c.name)
        (d + 1) i hi
      have h2 : (joinPath pp c.name).length = pp.length + 1 + c.name.length :=
        by simp [joinPath, String.length_append]; rfl
      omega
    · exact ih (fun c' hc' => htree c' (List.mem_cons_of_mem c hc')) pp d i hi

/-- Every candidate's path extends the path of the node it came from. -/
lemma entriesTree_path_le (o : ResolvedOptions) (cap : Nat) :
    ∀ (fsn : FSNode) (itemPath : String) (depth : Nat),
      ∀ i ∈ entriesTree o cap fsn itemPath depth,
        itemPath.length ≤ i.path.length := by
  suffices h : ∀ (n : Nat) (fsn : FSNode), sizeOf fsn ≤ n →
      ∀ (itemPath : String) (depth : Nat),
      ∀ i ∈ entriesTree o cap fsn itemPath depth,
        itemPath.length ≤ i.path.length by
    exact fun fsn => h (sizeOf fsn) fsn le_rfl
  intro n
  induction n using Nat.strong_induction_on with
  | _ n ihn =>
    rintro ⟨nm, st, li⟩ hsz itemPath depth i hi
    by_cases hd : depth > cap
    · exfalso
      cases st <;> cases li
      · rw [entriesTree_eq_statNone, if_pos hd] at hi; simp at hi
      · rw [entriesTree_eq_statNone, if_pos hd] at hi; simp at hi
      · rw [entriesTree_eq_listNone, if_pos hd] at hi; simp at hi
      · rw [entriesTree_eq_listSome, if_pos hd] at hi; simp at hi
    · by_cases hig : shouldIgnorePath o.ignores itemPath o.includeHidden = true
      · exfalso
        cases st <;> cases li
        · rw [entriesTree_eq_statNone, if_neg hd, if_pos hig] at hi
          simp at hi
        · rw [entriesTree_eq_statNone, if_neg hd, if_pos hig] at hi
          simp at hi
        · rw [entriesTree_eq_listNone, if_neg hd, if_pos hig] at hi
          simp at hi
        · rw [entriesTree_eq_listSome, if_neg hd, if_pos hig] at hi
          simp at hi
      · cases st with
        | none =>
          exfalso
          rw [entriesTree_eq_statNone, if_neg hd, if_neg hig] at hi
          simp at hi
        | some s =>
          cases li with
          | none =>
            rw [entriesTree_eq_listNone, if_neg hd, if_neg hig] at hi
            rw [List.mem_singleton] at hi
            subst hi
            exact le_rfl
          | some entries =>
            rw [entriesTree_eq_listSome, if_neg hd, if_neg hig] at hi
            by_cases hk : s.kind = EntryKind.directory
            · rw [if_pos hk] at hi
              rcases List.mem_append.mp hi with hi | hi
              · have := entriesForest_path_lt_of_tree o cap entries
                  (fun c hc p' d' j hj => ihn (sizeOf c)
                    (lt_of_lt_of_le (sizeOf_mem_entries hc nm (some s)) hsz)
                    c le_rfl p' d' j hj) itemPath depth i hi
                omega
              · rw [List.mem_singleton] at hi
                subst hi
                exact le_rfl
            · rw [if_neg hk] at hi
              rw [List.mem_singleton] at hi
              subst hi
              exact le_rfl

lemma entriesForest_path_lt (o : ResolvedOptions) (cap : Nat)
    (F : List FSNode) (pp : String) (d : Nat) :
    ∀ i ∈ entriesForest o cap F pp d, pp.length < i.path.length :=
  entriesForest_path_lt_of_tree o cap F
    (fun c _ p' d' i hi => entriesTree_path_le o cap c p' d' i hi) pp d

lemma entriesForest_congr_of_tree (o1 o2 : ResolvedOptions) (cap : Nat)
    (F : List FSNode)
    (htree : ∀ c ∈ F, ∀ (p' : String) (d' : Nat),
      entriesTree o1 cap c p' d' = entriesTree o2 cap c p' d') :
    ∀ (pp : String) (d : Nat),
      entriesForest o1 cap F pp d = entriesForest o2 cap F pp d := by
  induction F with
  | nil => intro pp d; rw [entriesForest_nil, entriesForest_nil]
  | cons c rest ih =>
    intro pp d
    rw [entriesForest_cons, entriesForest_cons,
      htree c (List.mem_cons_self c rest),
      ih (fun c' hc' => htree c' (List.mem_cons_of_mem c hc'))]

/-- The candidate list depends only on the filter options. -/
lemma entriesTree_congr (o1 o2 : ResolvedOptions)
    (hig : o1.ignores = o2.ignores) (hih : o1.includeHidden = o2.includeHidden)
    (cap : Nat) :
    ∀ (fsn : FSNode) (itemPath : String) (depth : Nat),
      entriesTree o1 cap fsn itemPath depth =
        entriesTree o2 cap fsn itemPath depth := by
  suffices h : ∀ (n : Nat) (fsn : FSNode), sizeOf fsn ≤ n →
      ∀ (itemPath : String) (depth : Nat),
      entriesTree o1 cap fsn itemPath depth =
        entriesTree o2 cap fsn itemPath depth by
    exact fun fsn => h (sizeOf fsn) fsn le_rfl
  intro n
  induction n using Nat.strong_induction_on with
  | _ n ihn =>
    rintro ⟨nm, st, li⟩ hsz itemPath depth
    cases st <;> cases li
    · rw [entriesTree_eq_statNone, entriesTree_eq_statNone, hig, hih]
    · rw [entriesTree_eq_statNone, entriesTree_eq_statNone, hig, hih]
    · rw [entriesTree_eq_listNone, entriesTree_eq_listNone, hig, hih]
    · rw [entriesTree_eq_listSome, entriesTree_eq_listSome, hig, hih,
        entriesForest_congr_of_tree o1 o2 cap _
          (fun c hc p' d' => ihn (sizeOf c)
            (lt_of_lt_of_le (sizeOf_mem_entries hc nm _) hsz) c le_rfl p' d')]

/-- Componentwise order on aggregates. -/
def resLe (a b : FolderSizeResult) : Prop :=
  a.size ≤ b.size ∧ a.fileCount ≤ b.fileCount ∧
    a.directoryCount ≤ b.directoryCount ∧ a.linkCount ≤ b.linkCount

lemma resLe_addResult {a b a' b' : FolderSizeResult} (h1 : resLe a a')
    (h2 : resLe b b') : resLe (addResult a b) (addResult a' b') := by
  obtain ⟨x1, x2, x3, x4⟩ := h1
  obtain ⟨y1, y2, y3, y4⟩ := h2
  exact ⟨Nat.add_le_add x1 y1, Nat.add_le_add x2 y2, Nat.add_le_add x3 y3,
    Nat.add_le_add x4 y4⟩

lemma resLe_refl (a : FolderSizeResult) : resLe a a :=
  ⟨le_rfl, le_rfl, le_rfl, le_rfl⟩

lemma aggregate_cons (o : ResolvedOptions) (rootPath : String)
    (i : FileSystemItem) (l : List FileSystemItem) :
    aggregate o rootPath (i :: l) =
      addResult (contribution o rootPath i) (aggregate o rootPath l) := rfl

lemma aggregate_sublist_le (o : ResolvedOptions) (rootPath : String)
    {E E' : List FileSystemItem} (h : List.Sublist E E') :
    resLe (aggregate o rootPath E) (aggregate o rootPath E') := by
  induction h with
  | slnil => exact resLe_refl _
  | cons i hsub ih =>
    rw [aggregate_cons]
    obtain ⟨x1, x2, x3, x4⟩ := ih
    refine ⟨?_, ?_, ?_, ?_⟩ <;> simp only [addResult] <;> omega
  | cons₂ i hsub ih =>
    rw [aggregate_cons, aggregate_cons]
    exact resLe_addResult (resLe_refl _) ih

lemma canonicalResult_sublist_le (o : ResolvedOptions) (σ : InodeKey → Nat)
    (κ : InodeKey → EntryKind) {E E' : List FileSystemItem}
    (h : List.Sublist E E') (s : List InodeKey) :
    resLe (canonicalResult o σ κ E s) (canonicalResult o σ κ E' s) := by
  have hsub : (keysOfList E).toFinset \ s.toFinset ⊆
      (keysOfList E').toFinset \ s.toFinset := by
    apply Finset.sdiff_subset_sdiff _ (le_refl _)
    intro k hk
    rw [List.mem_toFinset] at hk ⊢
    exact (h.map keyOfItem).subset hk
  refine ⟨?_, ?_, ?_, ?_⟩
  · exact Finset.sum_le_sum_of_subset hsub
  · exact Finset.card_le_card (Finset.filter_subset_filter _ hsub)
  · exact Finset.card_le_card (Finset.filter_subset_filter _ hsub)
  · exact Finset.card_le_card (Finset.filter_subset_filter _ hsub)

/-- The inode recorded for the root before its children are traversed. -/
def rootSeed (root : FSNode) : List InodeKey :=
  match root.stat with
  | some st => [getInodeKey st]
  | none => []

/-- The candidate entries below the root (empty unless the root is a
readable, unfiltered directory). -/
def rootChildrenEntries (o : ResolvedOptions) (cap : Nat) (root : FSNode)
    (rootPath : String) : List FileSystemItem :=
  match root with
  | .mk _ (some st) (some entries) =>
    if shouldIgnorePath o.ignores rootPath o.includeHidden = true then []
    else if st.kind = EntryKind.directory then
      entriesForest o cap entries rootPath 0
    else []
  | _ => []

/-- The root node's own callback increment (zero when the root is filtered
out or its `lstat` failed). -/
def rootContribution (o : ResolvedOptions) (root : FSNode)
    (rootPath : String) : FolderSizeResult :=
  match root.stat with
  | some st =>
    if shouldIgnorePath o.ignores rootPath o.includeHidden = true then
      ⟨0, 0, 0, 0⟩
    else contribution o rootPath ⟨rootPath, basename rootPath, st, 0⟩
  | none => ⟨0, 0, 0, 0⟩

lemma addResult_zero_right (x : FolderSizeResult) :
    addResult x ⟨0, 0, 0, 0⟩ = x := by
  cases x; simp [addResult]

/-- With `inodeCheck = false`, `size` computes the plain aggregate over all
candidate entries. -/
lemma sizeAtCap_noDedup (o : ResolvedOptions) (cap : Nat)
    (hic : o.inodeCheck = false) (hsw : errorsSwallowed o)
    (root : FSNode) (rootPath : String) :
    sizeAtCap o cap root rootPath =
      .ok (aggregate o rootPath (entriesTree o cap root rootPath 0)) := by
  obtain ⟨res, heq, hflat⟩ :=
    traverseItem_noDedup o cap hic hsw root rootPath 0 []
  rw [sizeAtCap, heq]
  cases res with
  | none =>
    rw [← hflat]
    rfl
  | some t =>
    rw [← hflat]
    rfl

/-- With `inodeCheck = true`, `size` computes the canonical key-set
aggregate of the root's children (seeded with the root's own key) plus the
root's own contribution. -/
lemma sizeAtCap_dedup (o : ResolvedOptions) (σ : InodeKey → Nat)
    (κ : InodeKey → EntryKind) (root : FSNode) (rootPath : String) (cap : Nat)
    (hic : o.inodeCheck = true) (hsw : errorsSwallowed o)
    (hag : agrees σ κ (entriesTree o cap root rootPath 0))
    (hdir : dirKeysUnique κ (entriesTree o cap root rootPath 0) []) :
    sizeAtCap o cap root rootPath =
      .ok (addResult
        (canonicalResult o σ κ (rootChildrenEntries o cap root rootPath)
          (rootSeed root))
        (rootContribution o root rootPath)) := by
  obtain ⟨nm, st, li⟩ := root
  have hd : ¬ (0 > cap) := by omega
  by_cases hig : shouldIgnorePath o.ignores rootPath o.includeHidden = true
  · have hnone : traverseItem o cap (.mk nm st li) rootPath 0 [] =
        ([], .ok none) := by
      cases st <;> cases li
      · rw [traverseItem_eq_statNone, if_neg hd, if_pos hig]
      · rw [traverseItem_eq_statNone, if_neg hd, if_pos hig]
      · rw [traverseItem_eq_listNone, if_neg hd, if_pos hig]
      · rw [traverseItem_eq_listSome, if_neg hd, if_pos hig]
    rw [sizeAtCap, hnone]
    have hch : rootChildrenEntries o cap (.mk nm st li) rootPath = [] := by
      cases st <;> cases li <;> simp [rootChildrenEntries, hig]
    have hrc : rootContribution o (.mk nm st li) rootPath = ⟨0, 0, 0, 0⟩ := by
      cases st <;> simp [rootContribution, FSNode.stat, hig]
    rw [hch, hrc, canonicalResult_nil, addResult_zero_right]
  · cases st with
    | none =>
      have hnone : traverseItem o cap (.mk nm none li) rootPath 0 [] =
          ([], .ok none) := by
        rw [traverseItem_eq_statNone, if_neg hd, if_neg hig, hsw rootPath]
      rw [sizeAtCap, hnone]
      have hch : rootChildrenEntries o cap (.mk nm none li) rootPath = [] := by
        cases li <;> rfl
      rw [hch, canonicalResult_nil, addResult_zero_left]
      rfl
    | some s =>
      have hchk : (if o.inodeCheck then checkInode [] s else (false, [])) =
          (false, [getInodeKey s]) := by
        rw [if_pos hic]
        simp [checkInode]
      have hseed : rootSeed (.mk nm (some s) li) = [getInodeKey s] := rfl
      by_cases hk : s.kind = EntryKind.directory
      · cases li with
        | none =>
          have heq : traverseItem o cap (.mk nm (some s) none) rootPath 0 []
              = ([getInodeKey s],
                .ok (some (.node ⟨rootPath, basename rootPath, s, 0⟩ []))) :=
            by
            rw [traverseItem_eq_listNone, if_neg hd, if_neg hig, hchk]
            simp [hk, hsw rootPath]
          rw [sizeAtCap, heq]
          have hch : rootChildrenEntries o cap (.mk nm (some s) none) rootPath
              = [] := rfl
          rw [hch, canonicalResult_nil, addResult_zero_left]
          simp [rootContribution, FSNode.stat, hig, vflatten_node,
            vflattenList_nil, aggregate_single]
        | some entries =>
          have hE : entriesTree o cap (.mk nm (some s) (some entries))
              rootPath 0 =
              entriesForest o cap entries rootPath 0 ++
                [⟨rootPath, basename rootPath, s, 0⟩] := by
            rw [entriesTree_eq_listSome, if_neg hd, if_neg hig, if_pos hk]
          have hitem : (⟨rootPath, basename rootPath, s, 0⟩ :
              FileSystemItem) ∈ entriesTree o cap
                (.mk nm (some s) (some entries)) rootPath 0 := by
            rw [hE]
            exact List.mem_append_right _ (List.mem_singleton.mpr rfl)
          have hκ : κ (getInodeKey s) = EntryKind.directory := by
            have := (hag _ hitem).2
            simp only [keyOfItem] at this
            rw [← this]; exact hk
          have hcnt := hdir (getInodeKey s) hκ
          have hcntE : (keysOfList (entriesTree o cap
              (.mk nm (some s) (some entries)) rootPath 0)).count
                (getInodeKey s) =
              (keysOfList (entriesForest o cap entries rootPath 0)).count
                (getInodeKey s) + 1 := by
            rw [hE]
            simp [keysOfList, List.count_append, keyOfItem,
              List.count_singleton]
          have hknotEF : getInodeKey s ∉
              keysOfList (entriesForest o cap entries rootPath 0) := by
            intro hcon
            have := List.count_pos_iff_mem.mpr hcon
            simp at hcnt
            omega
          have hmemf : ∀ i ∈ entriesForest o cap entries rootPath 0,
              i ∈ entriesTree o cap (.mk nm (some s) (some entries))
                rootPath 0 := by
            intro i hi
            rw [hE]
            exact List.mem_append_left _ hi
          have hagf : agrees σ κ (entriesForest o cap entries rootPath 0) :=
            fun i hi => hag i (hmemf i hi)
          have hdirf : dirKeysUnique κ
              (entriesForest o cap entries rootPath 0) [getInodeKey s] := by
            intro k hkd
            have htot := hdir k hkd
            have hsplit : (keysOfList (entriesTree o cap
                (.mk nm (some s) (some entries)) rootPath 0)).count k =
                (keysOfList (entriesForest o cap entries rootPath 0)).count k
                  + (if getInodeKey s = k then 1 else 0) := by
              rw [hE]
              simp [keysOfList, List.count_append, keyOfItem,
                List.count_singleton]
            rw [hsplit] at htot
            by_cases hkk : k = getInodeKey s
            · subst hkk
              have hzero : (keysOfList (entriesForest o cap entries rootPath
                  0)).count (getInodeKey s) = 0 :=
                List.count_eq_zero.mpr hknotEF
              simp [hzero, List.mem_singleton]
            · have hne : getInodeKey s ≠ k := fun hcc => hkk hcc.symm
              simp only [List.mem_singleton, hkk, if_false, hne] at htot ⊢
              simp at htot
              omega
          have hrootf : offRoot rootPath
              (entriesForest o cap entries rootPath 0) := by
            intro i hi hcon
            have := entriesForest_path_lt o cap entries rootPath 0 i hi
            rw [hcon] at this
            omega
          obtain ⟨ts, s2, hch, hs2, hagg⟩ :=
            traverseChildren_dedup o cap σ κ rootPath entries
              (fun c _ p' d' s' => traverseItem_dedup o cap σ κ rootPath hic
                hsw c p' d' s')
              rootPath 0 [getInodeKey s] hagf hdirf hrootf
          have heq : traverseItem o cap (.mk nm (some s) (some entries))
              rootPath 0 [] =
              (s2, .ok (some (.node ⟨rootPath, basename rootPath, s, 0⟩
                ts))) := by
            rw [traverseItem_eq_listSome, if_neg hd, if_neg hig, hchk]
            simp [hk, hch]
          rw [sizeAtCap, heq]
          have hchE : rootChildrenEntries o cap (.mk nm (some s) (some
              entries)) rootPath = entriesForest o cap entries rootPath 0 :=
            by simp [rootChildrenEntries, hig, hk]
          have hrc : rootContribution o (.mk nm (some s) (some entries))
              rootPath = contribution o rootPath
                ⟨rootPath, basename rootPath, s, 0⟩ := by
            simp [rootContribution, FSNode.stat, hig]
          rw [hchE, hrc, hseed]
          show Except.ok (aggregate o rootPath (vflatten
            (.node ⟨rootPath, basename rootPath, s, 0⟩ ts))) = _
          rw [show vflatten (.node (⟨rootPath, basename rootPath, s, 0⟩ :
            FileSystemItem) ts) = vflattenList ts ++
              [⟨rootPath, basename rootPath, s, 0⟩] from vflatten_node _ _]
          rw [aggregate_append, aggregate_single, hagg]
      · have heq : traverseItem o cap (.mk nm (some s) li) rootPath 0 [] =
            ([getInodeKey s],
              .ok (some (.node ⟨rootPath, basename rootPath, s, 0⟩ []))) := by
          cases li with
          | none =>
            rw [traverseItem_eq_listNone, if_neg hd, if_neg hig, hchk]
            simp [hk]
          | some entries =>
            rw [traverseItem_eq_listSome, if_neg hd, if_neg hig, hchk]
            simp [hk]
        rw [sizeAtCap, heq]
        have hch : rootChildrenEntries o cap (.mk nm (some s) li) rootPath
            = [] := by
          cases li with
          | none => rfl
          | some entries => simp [rootChildrenEntries, hig, hk]
        rw [hch, canonicalResult_nil, addResult_zero_left]
        simp [rootContribution, FSNode.stat, hig, vflatten_node,
          vflattenList_nil, aggregate_single]

lemma agrees_of_sublist {σ : InodeKey → Nat} {κ : InodeKey → EntryKind}
    {E E' : List FileSystemItem} (h : List.Sublist E E')
    (hag : agrees σ κ E') : agrees σ κ E :=
  fun i hi => hag i (h.subset hi)

lemma dirKeysUnique_of_sublist {κ : InodeKey → EntryKind}
    {E E' : List FileSystemItem} {s : List InodeKey}
    (h : List.Sublist E E') (hd : dirKeysUnique κ E' s) :
    dirKeysUnique κ E s := by
  intro k hk
  have h1 := hd k hk
  have h2 : (keysOfList E).count k ≤ (keysOfList E').count k :=
    List.Sublist.count_le (h.map keyOfItem) k
  omega

lemma rootChildrenEntries_sublist (o : ResolvedOptions) {cap cap' : Nat}
    (hcap : cap ≤ cap') (root : FSNode) (rootPath : String) :
    List.Sublist (rootChildrenEntries o cap root rootPath)
      (rootChildrenEntries o cap' root rootPath) := by
  obtain ⟨nm, st, li⟩ := root
  cases st with
  | none => exact List.Sublist.refl _
  | some s =>
    cases li with
    | none => exact List.Sublist.refl _
    | some entries =>
      simp only [rootChildrenEntries]
      split_ifs
      · exact List.Sublist.refl _
      · exact entriesForest_sublist o hcap entries rootPath 0
      · exact List.Sublist.refl _

/-- Under per-key-consistent stats, the accumulated size is the sum of key
weights over the visited list (with multiplicity). -/
lemma aggregate_size_agrees (o : ResolvedOptions) (σ : InodeKey → Nat)
    (κ : InodeKey → EntryKind) (rootPath : String) :
    ∀ (E : List FileSystemItem), agrees σ κ E →
      (aggregate o rootPath E).size =
        ((keysOfList E).map (wOf o σ κ)).sum := by
  intro E
  induction E with
  | nil => intro _; rfl
  | cons i rest ih =>
    intro hag
    have hi := hag i (List.mem_cons_self i rest)
    have hrest := ih (fun j hj => hag j (List.mem_cons_of_mem i hj))
    rw [aggregate_cons]
    simp only [keysOfList, List.map_cons, List.sum_cons] at *
    simp only [addResult]
    rw [hrest]
    congr 1
    simp only [contribution, wOf, keyOfItem] at *
    rw [hi.1, hi.2]

/-- The size accumulated by the dedup traversal equals the sum of weights
over the *set* of visited keys. -/
lemma dedup_size_keyset (o : ResolvedOptions) (σ : InodeKey → Nat)
    (κ : InodeKey → EntryKind) (root : FSNode) (rootPath : String) (cap : Nat)
    (hag : agrees σ κ (entriesTree o cap root rootPath 0))
    (hdir : dirKeysUnique κ (entriesTree o cap root rootPath 0) []) :
    (addResult
        (canonicalResult o σ κ (rootChildrenEntries o cap root rootPath)
          (rootSeed root))
        (rootContribution o root rootPath)).size =
      Finset.sum ((keysOfList (entriesTree o cap root rootPath 0)).toFinset)
        (wOf o σ κ) := by
  obtain ⟨nm, st, li⟩ := root
  have hd : ¬ (0 > cap) := by omega
  by_cases hig : shouldIgnorePath o.ignores rootPath o.includeHidden = true
  · have hE : entriesTree o cap (.mk nm st li) rootPath 0 = [] := by
      cases st <;> cases li
      · rw [entriesTree_eq_statNone, if_neg hd, if_pos hig]
      · rw [entriesTree_eq_statNone, if_neg hd, if_pos hig]
      · rw [entriesTree_eq_listNone, if_neg hd, if_pos hig]
      · rw [entriesTree_eq_listSome, if_neg hd, if_pos hig]
    have hch : rootChildrenEntries o cap (.mk nm st li) rootPath = [] := by
      cases st <;> cases li <;> simp [rootChildrenEntries, hig]
    have hrc : rootContribution o (.mk nm st li) rootPath = ⟨0, 0, 0, 0⟩ := by
      cases st <;> simp [rootContribution, FSNode.stat, hig]
    rw [hE, hch, hrc, canonicalResult_nil]
    simp [keysOfList, addResult]
  · cases st with
    | none =>
      have hE : entriesTree o cap (.mk nm none li) rootPath 0 = [] := by
        rw [entriesTree_eq_statNone, if_neg hd, if_neg hig]
      have hch : rootChildrenEntries o cap (.mk nm none li) rootPath = [] :=
        by cases li <;> rfl
      rw [hE, hch, canonicalResult_nil]
      simp [rootContribution, FSNode.stat, keysOfList, addResult]
    | some s =>
      have hrc : rootContribution o (.mk nm (some s) li) rootPath =
          contribution o rootPath ⟨rootPath, basename rootPath, s, 0⟩ := by
        simp [rootContribution, FSNode.stat, hig]
      by_cases hk : s.kind = EntryKind.directory
      · cases li with
        | none =>
          have hE : entriesTree o cap (.mk nm (some s) none) rootPath 0 =
              [⟨rootPath, basename rootPath, s, 0⟩] := by
            rw [entriesTree_eq_listNone, if_neg hd, if_neg hig]
          have hin : (⟨rootPath, basename rootPath, s, 0⟩ : FileSystemItem) ∈
              entriesTree o cap (.mk nm (some s) none) rootPath 0 := by
            rw [hE]; exact List.mem_singleton.mpr rfl
          have hagi := hag _ hin
          rw [hE, hrc]
          show (addResult (canonicalResult o σ κ [] _) _).size = _
      -- `rootChildrenEntries` is [] here by definition
          rw [canonicalResult_nil, addResult_zero_left]
          simp only [keysOfList, List.map_cons, List.map_nil,
            List.toFinset_cons, List.toFinset_nil, insert_emptyc_eq,
            Finset.sum_singleton]
          simp only [contribution, wOf, keyOfItem] at *
          rw [hagi.1, hagi.2]
        | some entries =>
          have hE : entriesTree o cap (.mk nm (some s) (some entries))
              rootPath 0 =
              entriesForest o cap entries rootPath 0 ++
                [⟨rootPath, basename rootPath, s, 0⟩] := by
            rw [entriesTree_eq_listSome, if_neg hd, if_neg hig, if_pos hk]
          have hitem : (⟨rootPath, basename rootPath, s, 0⟩ :
              FileSystemItem) ∈ entriesTree o cap
                (.mk nm (some s) (some entries)) rootPath 0 := by
            rw [hE]
            exact List.mem_append_right _ (List.mem_singleton.mpr rfl)
          have hagi := hag _ hitem
          have hκ : κ (getInodeKey s) = EntryKind.directory := by
            have := hagi.2
            simp only [keyOfItem] at this
            rw [← this]; exact hk
          have hcnt := hdir (getInodeKey s) hκ
          have hcntE : (keysOfList (entriesTree o cap
              (.mk nm (some s) (some entries)) rootPath 0)).count
                (getInodeKey s) =
              (keysOfList (entriesForest o cap entries rootPath 0)).count
                (getInodeKey s) + 1 := by
            rw [hE]
            simp [keysOfList, List.count_append, keyOfItem,
              List.count_singleton]
          have hknotEF : getInodeKey s ∉
              keysOfList (entriesForest o cap entries rootPath 0) := by
            intro hcon
            have := List.count_pos_iff_mem.mpr hcon
            simp at hcnt
            omega
          have hch : rootChildrenEntries o cap
              (.mk nm (some s) (some entries)) rootPath =
              entriesForest o cap entries rootPath 0 := by
            simp [rootChildrenEntries, hig, hk]
          rw [hE, hch, hrc]
          have hseed : rootSeed (.mk nm (some s) (some entries)) =
              [getInodeKey s] := rfl
          rw [hseed]
          have hsdiff : (keysOfList (entriesForest o cap entries rootPath
              0)).toFinset \ ([getInodeKey s] : List InodeKey).toFinset =
              (keysOfList (entriesForest o cap entries rootPath 0)).toFinset
              := by
            ext k
            simp only [Finset.mem_sdiff, List.mem_toFinset,
              List.toFinset_cons, List.toFinset_nil, insert_emptyc_eq,
              Finset.mem_singleton, List.mem_cons, List.not_mem_nil,
              or_false]
            constructor
            · exact fun h => h.1
            · intro h
              refine ⟨h, fun hc => ?_⟩
              subst hc
              exact hknotEF h
          have hkeys : (keysOfList (entriesForest o cap entries rootPath 0 ++
              [(⟨rootPath, basename rootPath, s, 0⟩ : FileSystemItem)]
              )).toFinset =
              (keysOfList (entriesForest o cap entries rootPath 0)).toFinset
                ∪ {getInodeKey s} := by
            simp [keysOfList, keyOfItem]
          rw [hkeys]
          have hdisj : Disjoint (keysOfList (entriesForest o cap entries
              rootPath 0)).toFinset ({getInodeKey s} : Finset InodeKey) := by
            rw [Finset.disjoint_singleton_right, List.mem_toFinset]
            exact hknotEF
          rw [Finset.sum_union hdisj, Finset.sum_singleton]
          simp only [addResult, canonicalResult]
          rw [hsdiff]
          congr 1
          simp only [contribution, wOf, keyOfItem] at *
          rw [hagi.1, hagi.2]
      · have hE : entriesTree o cap (.mk nm (some s) li) rootPath 0 =
            [⟨rootPath, basename rootPath, s, 0⟩] := by
          cases li with
          | none => rw [entriesTree_eq_listNone, if_neg hd, if_neg hig]
          | some entries =>
            rw [entriesTree_eq_listSome, if_neg hd, if_neg hig, if_neg hk]
        have hin : (⟨rootPath, basename rootPath, s, 0⟩ : FileSystemItem) ∈
            entriesTree o cap (.mk nm (some s) li) rootPath 0 := by
          rw [hE]; exact List.mem_singleton.mpr rfl
        have hagi := hag _ hin
        have hch : rootChildrenEntries o cap (.mk nm (some s) li) rootPath
            = [] := by
          cases li with
          | none => rfl
          | some entries => simp [rootChildrenEntries, hig, hk]
        rw [hE, hch, hrc, canonicalResult_nil, addResult_zero_left]
        simp only [keysOfList, List.map_cons, List.map_nil,
          List.toFinset_cons, List.toFinset_nil, insert_emptyc_eq,
          Finset.sum_singleton]
        simp only [contribution, wOf, keyOfItem] at *
        rw [hagi.1, hagi.2]

/-- **C7.** Depth cap and monotonicity of `size` in `maxDepth`.  First,
`size` is exactly the capped traversal at `cap = options.maxDepth`
(`traverseFileSystem` prunes with `depth > this.options.maxDepth`).  Second,
every item the counting callback ever fires on satisfies `depth ≤ cap`, so
no entry at depth `cap + 1` or deeper contributes to the total size or to
the file / directory / link counts.  Third, for a fixed tree with
per-key-consistent stats and a swallowing error policy, raising the cap
from `k` to `k' ≥ k` keeps the run successful and makes every component of
the result — size, fileCount, directoryCount, linkCount — monotonically
non-decreasing. -/
theorem maxDepth_bounds_and_counts_monotone
    (o : ResolvedOptions) (σ : InodeKey → Nat) (κ : InodeKey → EntryKind)
    (root : FSNode) (rootPath : String) (k k' : Nat) (hk : k ≤ k')
    (hsw : errorsSwallowed o)
    (hag : agrees σ κ (entriesTree o k' root rootPath 0))
    (hdir : dirKeysUnique κ (entriesTree o k' root rootPath 0) []) :
    size o root rootPath = sizeAtCap o o.maxDepth root rootPath ∧
    (∀ (m : Nat) (s2 : List InodeKey) (t : VisitTree),
        traverseItem o m root rootPath 0 [] = (s2, .ok (some t)) →
        ∀ i ∈ vflatten t, i.depth ≤ m) ∧
    ∃ rk rk', sizeAtCap o k root rootPath = .ok rk ∧
      sizeAtCap o k' root rootPath = .ok rk' ∧ resLe rk rk' := by
  refine ⟨rfl,
    fun m s2 t heq => traverseItem_depth_le o m root rootPath 0 [] s2 t heq,
    ?_⟩
  by_cases hic : o.inodeCheck = true
  · have hsubE := entriesTree_sublist o hk root rootPath 0
    have hagk := agrees_of_sublist hsubE hag
    have hdirk := dirKeysUnique_of_sublist hsubE hdir
    refine ⟨_, _, sizeAtCap_dedup o σ κ root rootPath k hic hsw hagk hdirk,
      sizeAtCap_dedup o σ κ root rootPath k' hic hsw hag hdir, ?_⟩
    exact resLe_addResult
      (canonicalResult_sublist_le o σ κ
        (rootChildrenEntries_sublist o hk root rootPath) (rootSeed root))
      (resLe_refl _)
  · have hic' : o.inodeCheck = false := by
      simpa using hic
    refine ⟨_, _, sizeAtCap_noDedup o k hic' hsw root rootPath,
      sizeAtCap_noDedup o k' hic' hsw root rootPath, ?_⟩
    exact aggregate_sublist_le o rootPath
      (entriesTree_sublist o hk root rootPath 0)

/-- A run of the depth-cap theorem on a concrete two-level tree (default
options, caps 0 and 1): both capped runs succeed and the result components
are non-decreasing from cap 0 to cap 1. -/
theorem maxDepth_bounds_and_counts_monotone_witness :
    ∃ rk rk',
      sizeAtCap (mergeOptions {}) 0
          (.mk "r" (some ⟨1, 1, 0, .directory⟩)
            (some [.mk "a" (some ⟨1, 2, 5, .file⟩) none])) "/r" = .ok rk ∧
      sizeAtCap (mergeOptions {}) 1
          (.mk "r" (some ⟨1, 1, 0, .directory⟩)
            (some [.mk "a" (some ⟨1, 2, 5, .file⟩) none])) "/r" = .ok rk' ∧
      resLe rk rk' :=
  (maxDepth_bounds_and_counts_monotone (mergeOptions {})
    (fun p => if p = (1, 2) then 5 else 0)
    (fun p => if p = (1, 1) then EntryKind.directory else EntryKind.file)
    (.mk "r" (some ⟨1, 1, 0, .directory⟩)
      (some [.mk "a" (some ⟨1, 2, 5, .file⟩) none])) "/r" 0 1
    (by decide) (fun p m => rfl)
    (by simp only [agrees]; decide)
    (by
      intro kk hkk
      by_cases h : kk = ((1 : Nat), (1 : Nat))
      · subst h; decide
      · have hkk' : (if kk = ((1 : Nat), (1 : Nat)) then
            EntryKind.directory else EntryKind.file) = EntryKind.directory :=
          hkk
        rw [if_neg h] at hkk'
        exact EntryKind.noConfusion hkk')).2.2

lemma sum_map_toFinset_count (L : List InodeKey) (f : InodeKey → Nat) :
    (L.map f).sum = Finset.sum L.toFinset (fun x => L.count x * f x) := by
  induction L with
  | nil => simp
  | cons a t ih =>
    rw [List.map_cons, List.sum_cons, ih, List.toFinset_cons]
    by_cases ha : a ∈ t.toFinset
    · rw [Finset.insert_eq_self.mpr ha]
      have hstep : ∀ x ∈ t.toFinset,
          List.count x (a :: t) * f x =
            List.count x t * f x + (if x = a then f x else 0) := by
        intro x hx
        rw [List.count_cons]
        by_cases hxa : x = a
        · subst hxa
          simp only [beq_self_eq_true, if_true]
          ring
        · simp [hxa]
          exact Or.inl (fun he => hxa he.symm)
      rw [Finset.sum_congr rfl hstep, Finset.sum_add_distrib,
        Finset.sum_ite_eq' t.toFinset a (fun x => f x), if_pos ha]
      ring
    · rw [Finset.sum_insert ha]
      have hat : a ∉ t := fun hc => ha (List.mem_toFinset.mpr hc)
      have hc0 : List.count a t = 0 := List.count_eq_zero.mpr hat
      have hca : List.count a (a :: t) = List.count a t + 1 := by
        simp [List.count_cons]
      have hstep : ∀ x ∈ t.toFinset,
          List.count x (a :: t) * f x = List.count x t * f x := by
        intro x hx
        have hxa : x ≠ a := fun he => hat (he ▸ List.mem_toFinset.mp hx)
        rw [List.count_cons]
        simp [hxa]
        exact Or.inl (fun he => hxa he.symm)
      rw [Finset.sum_congr rfl hstep, hca, hc0]
      ring

/-- **C6.** Hard-link deduplication.  For a tree whose visited candidates
carry per-key-consistent stats, in which the file key `K` (one physical
file of size `σ0`) occurs `N` times while every other key occurs once:
`size` with `inodeCheck = true` succeeds with some `r1`, `size` with
`inodeCheck = false` succeeds with some `r2`, and
`r2.size = r1.size + (N - 1) * σ0` — dedup counts `K`'s bytes exactly once
where the plain run counts them `N` times — whence
`r1.size ≤ r2.size`: disabling dedup never decreases the total. -/
theorem hardlink_dedup_counts_once
    (o : ResolvedOptions) (σ : InodeKey → Nat) (κ : InodeKey → EntryKind)
    (root : FSNode) (rootPath : String) (K : InodeKey) (N σ0 : Nat)
    (hic : o.inodeCheck = true) (hsw : errorsSwallowed o)
    (hag : agrees σ κ (entriesTree o o.maxDepth root rootPath 0))
    (hdir : dirKeysUnique κ (entriesTree o o.maxDepth root rootPath 0) [])
    (hκK : κ K = EntryKind.file) (hσK : σ K = σ0)
    (hN : (keysOfList (entriesTree o o.maxDepth root rootPath 0)).count K
      = N)
    (hone : ∀ k2 ∈ keysOfList (entriesTree o o.maxDepth root rootPath 0),
      k2 ≠ K →
      (keysOfList (entriesTree o o.maxDepth root rootPath 0)).count k2
        = 1) :
    ∃ r1 r2,
      size o root rootPath = .ok r1 ∧
      size {o with inodeCheck := false} root rootPath = .ok r2 ∧
      r2.size = r1.size + (N - 1) * σ0 ∧
      r1.size ≤ r2.size := by
  set E := entriesTree o o.maxDepth root rootPath 0 with hE
  set L := keysOfList E with hL
  set w := wOf o σ κ with hw
  have h1 := sizeAtCap_dedup o σ κ root rootPath o.maxDepth hic hsw hag hdir
  have hsize1 := dedup_size_keyset o σ κ root rootPath o.maxDepth hag hdir
  have h2 : size {o with inodeCheck := false} root rootPath =
      .ok (aggregate o rootPath E) := by
    have h := sizeAtCap_noDedup {o with inodeCheck := false} o.maxDepth rfl
      hsw root rootPath
    rw [entriesTree_congr {o with inodeCheck := false} o rfl rfl] at h
    exact h
  have hsize2 : (aggregate o rootPath E).size = (L.map w).sum :=
    aggregate_size_agrees o σ κ rootPath E hag
  have hsplit : ∀ x ∈ L.toFinset,
      L.count x * w x = w x + (if x = K then (N - 1) * σ0 else 0) := by
    intro x hx
    by_cases hxK : x = K
    · subst hxK
      have hpos : 0 < L.count x :=
        List.count_pos_iff.mpr (List.mem_toFinset.mp hx)
      have hwx : w x = σ0 := by
        rw [hw, wOf, hκK, hσK]
        simp
      rw [hN, hwx, if_pos rfl]
      have hNpos : 0 < N := by rw [← hN]; exact hpos
      have hN1 : N - 1 + 1 = N := Nat.succ_pred_eq_of_pos hNpos
      calc N * σ0 = (N - 1 + 1) * σ0 := by rw [hN1]
        _ = (N - 1) * σ0 + 1 * σ0 := by rw [Nat.add_mul]
        _ = σ0 + (N - 1) * σ0 := by ring
    · rw [hone x (List.mem_toFinset.mp hx) hxK, if_neg hxK]
      simp
  have hsum : (L.map w).sum =
      Finset.sum L.toFinset w + (if K ∈ L.toFinset then (N - 1) * σ0
        else 0) := by
    rw [sum_map_toFinset_count]
    trans (Finset.sum L.toFinset
      (fun x => w x + if x = K then (N - 1) * σ0 else 0))
    · exact Finset.sum_congr rfl hsplit
    · rw [Finset.sum_add_distrib]
      congr 1
      exact Finset.sum_ite_eq' L.toFinset K (fun _ => (N - 1) * σ0)
  have hfinal : (L.map w).sum = Finset.sum L.toFinset w + (N - 1) * σ0 := by
    rw [hsum]
    by_cases hKS : K ∈ L.toFinset
    · rw [if_pos hKS]
    · rw [if_neg hKS]
      have hc0 : L.count K = 0 :=
        List.count_eq_zero.mpr (fun hc => hKS (List.mem_toFinset.mpr hc))
      have hN0 : N = 0 := by rw [← hN]; exact hc0
      simp [hN0]
  refine ⟨addResult
      (canonicalResult o σ κ (rootChildrenEntries o o.maxDepth root rootPath)
        (rootSeed root))
      (rootContribution o root rootPath),
    aggregate o rootPath E, ?_, h2, ?_, ?_⟩
  · rw [size_eq_sizeAtCap]
    exact h1
  · rw [hsize2, hsize1, hfinal]
  · rw [hsize2, hfinal, hsize1]
    exact Nat.le_add_right _ _

/-- A run of the dedup theorem on a concrete directory holding two hard
links of one 7-byte file plus a distinct 3-byte file: the dedup total is
10, the plain total 17 = 10 + (2-1)*7. -/
theorem hardlink_dedup_counts_once_witness :
    ∃ r1 r2,
      size (mergeOptions {})
          (.mk "r" (some ⟨1, 1, 0, .directory⟩)
            (some [.mk "a" (some ⟨1, 5, 7, .file⟩) none,
                   .mk "b" (some ⟨1, 5, 7, .file⟩) none,
                   .mk "c" (some ⟨1, 6, 3, .file⟩) none])) "/r" = .ok r1 ∧
      size {mergeOptions {} with inodeCheck := false}
          (.mk "r" (some ⟨1, 1, 0, .directory⟩)
            (some [.mk "a" (some ⟨1, 5, 7, .file⟩) none,
                   .mk "b" (some ⟨1, 5, 7, .file⟩) none,
                   .mk "c" (some ⟨1, 6, 3, .file⟩) none])) "/r" = .ok r2 ∧
      r2.size = r1.size + (2 - 1) * 7 ∧
      r1.size ≤ r2.size :=
  hardlink_dedup_counts_once (mergeOptions {})
    (fun p => if p = (1, 5) then 7 else if p = (1, 6) then 3 else 0)
    (fun p => if p = (1, 1) then EntryKind.directory else EntryKind.file)
    (.mk "r" (some ⟨1, 1, 0, .directory⟩)
      (some [.mk "a" (some ⟨1, 5, 7, .file⟩) none,
             .mk "b" (some ⟨1, 5, 7, .file⟩) none,
             .mk "c" (some ⟨1, 6, 3, .file⟩) none])) "/r" (1, 5) 2 7
    rfl (fun p m => rfl)
    (by simp only [agrees]; decide)
    (by
      intro kk hkk
      by_cases h : kk = ((1 : Nat), (1 : Nat))
      · subst h; decide
      · have hkk' : (if kk = ((1 : Nat), (1 : Nat)) then
            EntryKind.directory else EntryKind.file) = EntryKind.directory :=
          hkk
        rw [if_neg h] at hkk'
        exact EntryKind.noConfusion hkk')
    (by decide) rfl (by decide) (by decide)

end GetFolder
